import Mathlib

/-!
Verification of the traversal-and-reconciliation engine of `notion_translate.py`.

Python strings are embedded as `List Char` (so `len` is `List.length`, counting
code points exactly as Python's `len` does), block dictionaries as the `Block`
structure, and every Document Store / Text Translator call as an explicit
`Effect` event.  The translator collaborator is an arbitrary pure function
`tr : Str → Str` (the source calls Google's API; languages are fixed for a run).
A Python exception (the `int(...)` call on an unparseable marked tail,
line 311 of the source) is embedded as `Option.none`.
-/

namespace NotionTranslate

/-- Python `str` as a list of code points. -/
abbrev Str := List Char

/-- `COMPLETION_MARK = "⚐"` (source line 12, a single character). -/
def completionMark : Char := '⚐'

/-- `MAX_TEXT_LENGTH = 2000` (source line 11). -/
def maxTextLength : Nat := 2000

/-- `INLINE_TYPES` (source lines 14-18). -/
def inlineTypes : List String := ["heading_1", "heading_2", "heading_3"]

/-- `RICH_TEXT_TYPES` (source lines 19-30). -/
def richTextTypes : List String :=
  ["heading_1", "heading_2", "heading_3", "paragraph", "bulleted_list_item",
   "numbered_list_item", "toggle", "to_do", "quote", "callout"]

/-- The whitespace characters removed by Python's `str.strip()` (ASCII part;
the source data is marker/text/digits, none of the exotic Unicode spaces). -/
def isPySpace (c : Char) : Bool :=
  c == ' ' || c == '\t' || c == '\n' || c == '\r' || c == '\x0b' || c == '\x0c'

/-- Left part of Python `str.strip()`. -/
def lstrip (s : Str) : Str := s.dropWhile isPySpace

/-- Right part of Python `str.strip()`. -/
def rstrip (s : Str) : Str := (s.reverse.dropWhile isPySpace).reverse

/-- Python `s.strip()`. -/
def strip (s : Str) : Str := rstrip (lstrip s)

/-- Python `COMPLETION_MARK in s` (single-character substring test =
membership). -/
def hasMark (s : Str) : Bool := decide (completionMark ∈ s)

/-- Python `s.split(sep)` for a single-character separator `c`:
always returns one more segment than there are occurrences of `c`. -/
def splitOnChar (c : Char) : Str → List Str
  | [] => [[]]
  | x :: xs =>
    if x = c then [] :: splitOnChar c xs
    else
      match splitOnChar c xs with
      | [] => [[x]]
      | h :: t => (x :: h) :: t

/-- `s.split(COMPLETION_MARK)`. -/
def splitMark (s : Str) : List Str := splitOnChar completionMark s

/-- The decimal digit characters, for embedding Python's `format` and `int`. -/
def digitChar : Nat → Char
  | 0 => '0' | 1 => '1' | 2 => '2' | 3 => '3' | 4 => '4'
  | 5 => '5' | 6 => '6' | 7 => '7' | 8 => '8' | _ => '9'

/-- `48 ≤ c ≤ 57`, i.e. `c` is one of `'0'..'9'`. -/
def isDigitCh (c : Char) : Bool := 48 ≤ c.toNat && c.toNat ≤ 57

/-- Numeric value of a digit character. -/
def digitVal (c : Char) : Nat := c.toNat - 48

/-- Decimal digits of `n`, most significant first (fuel-structured so the
kernel can evaluate it; `natDigits` below supplies sufficient fuel). -/
def natDigitsAux : Nat → Nat → List Char
  | 0, _ => []
  | fuel + 1, n =>
    if n < 10 then [digitChar n]
    else natDigitsAux fuel (n / 10) ++ [digitChar (n % 10)]

/-- Decimal representation of `n` (Python `repr` of a nonnegative int). -/
def natDigits (n : Nat) : List Char := natDigitsAux (n + 1) n

/-- Python `f"{n:04}"`: decimal representation left-padded with `'0'` to a
minimum width of 4 (wider numbers are kept whole). -/
def pad4 (n : Nat) : Str :=
  List.replicate (4 - (natDigits n).length) '0' ++ natDigits n

/-- Value of a digit string, Python `int` on an all-digit input. -/
def parseDigits (s : Str) : Nat :=
  s.foldl (fun a c => a * 10 + digitVal c) 0

/-- Python `int(s)` on an unsigned string: requires a nonempty all-digit
input, otherwise raises (`none`). -/
def parseNatStr (s : Str) : Option Nat :=
  if s ≠ [] ∧ ∀ c ∈ s, isDigitCh c then some (parseDigits s) else none

/-- Python `int(s)` (after stripping): an optional sign followed by digits;
anything else raises (`none`).  (Python additionally accepts `_` digit
group separators, which never arise from the 4-digit length fingerprints
this program writes.) -/
def parsePyInt (s : Str) : Option Int :=
  match s with
  | [] => none
  | c :: rest =>
    if c = '-' then (parseNatStr rest).map (fun n => -(n : Int))
    else if c = '+' then (parseNatStr rest).map (fun n => (n : Int))
    else (parseNatStr (c :: rest)).map (fun n => (n : Int))

/-- Python slice `s[:m]` for an `int` bound `m` (negative bounds count from
the end, exactly as in Python). -/
def pyTake (s : Str) (m : Int) : Str :=
  if 0 ≤ m then s.take m.toNat else s.take (s.length - (-m).toNat)

/-- A Notion block as the engine sees it.  `pageTitle` embeds the page title
property that `get_title_text` fetches when `btype = "child_page"` (for other
blocks it is unused).  `lastEdited` is the parsed `last_edited_time`, in
minutes (the code only compares it against "now minus 5 minutes"). -/
structure Block where
  id : Nat
  btype : String
  richText : List Str
  lastEdited : Int
  pageTitle : Str
deriving DecidableEq, Repr

/-- `NotionClient.get_text` (source lines 166-171): concatenate the runs'
plain text, followed by `get_block_text` (lines 173-177): blocks outside
`RICH_TEXT_TYPES` yield the empty string. -/
def blockText (b : Block) : Str :=
  if b.btype ∈ richTextTypes then b.richText.foldl (fun t r => t ++ r) []
  else []

/-- One observable interaction with a collaborator: a Text Translator call or
a Document Store mutation. -/
inductive Effect where
  | translateCall (text : Str)
  | updateTitle (pageId : Nat) (title : Str)
  | updateBlock (blockId : Nat) (payload : Block)
  | deleteBlock (blockId : Nat)
  | appendChild (parentId : Nat) (payload : Block)
deriving DecidableEq, Repr

/-- `division_text = f" {COMPLETION_MARK} "` (source line 229), also the
`mark_text` of the inline branch (line 272). -/
def divisionText : Str := [' ', completionMark, ' ']

/-- `Converter.handle_page_block` (source lines 226-247): returns the page
title as stored after the call, plus the effect trace.  `title` is the stored
title that `get_title_text` returns. -/
def handle_page_block (tr : Str → Str) (create : Bool) (pageId : Nat)
    (title : Str) : Str × List Effect :=
  let sourceText := strip title
  if create then
    if hasMark sourceText then (title, [])
    else
      let converted := tr sourceText ++ divisionText ++ sourceText
      (converted, [.translateCall sourceText, .updateTitle pageId converted])
  else
    if hasMark sourceText then
      let converted := strip ((splitMark sourceText).getD 1 [])
      (converted, [.updateTitle pageId converted])
    else (title, [])

/-- A non-title node's reconciliation state: the block itself and its
currently stored children (fetched by `get_blocks(block["id"], False)`,
source line 302). -/
structure NodeState where
  block : Block
  children : List Block
deriving DecidableEq, Repr

/-- `mark_text = f" {COMPLETION_MARK} {len(source_text):04}"`
(source line 298). -/
def containerMarkText (srcLen : Nat) : Str :=
  ' ' :: completionMark :: ' ' :: pad4 srcLen

/-- `int(child_text.split(COMPLETION_MARK)[-1].strip())`
(source lines 310-311). -/
def parseTail (t : Str) : Option Int :=
  parsePyInt (strip ((splitMark t).getLastD []))

/-- The child-scanning loop of the container create branch (source lines
305-313): walks the children in order, keeps the first marked child as the
candidate (parsing its embedded length, which may raise = `none`), and
deletes every further marked child.  Returns the candidate with its parsed
length, the surviving children in order, and the delete effects. -/
def scanCreate (cand : Option (Block × Int)) :
    List Block → Option (Option (Block × Int) × List Block × List Effect)
  | [] => some (cand, [], [])
  | c :: rest =>
    if hasMark (blockText c) then
      match cand with
      | none =>
        match parseTail (blockText c) with
        | none => none
        | some m =>
          match scanCreate (some (c, m)) rest with
          | none => none
          | some (r, cs, es) => some (r, c :: cs, es)
      | some p =>
        match scanCreate (some p) rest with
        | none => none
        | some (r, cs, es) => some (r, cs, Effect.deleteBlock c.id :: es)
    else
      match scanCreate cand rest with
      | none => none
      | some (r, cs, es) => some (r, c :: cs, es)

/-- The marked text composed by the container create branch (source lines
324-332): translate, truncate the translated part when it would overflow
`MAX_TEXT_LENGTH`, append the mark suffix. -/
def composedMarkedText (tr : Str → Str) (sourceText : Str) : Str :=
  let markText := containerMarkText sourceText.length
  let translated := tr sourceText
  let maximumContentLength : Int := (maxTextLength : Int) - (markText.length : Int)
  let translated' :=
    if (translated.length : Int) > maximumContentLength then
      pyTake translated maximumContentLength
    else translated
  translated' ++ markText

/-- The store view of `update_block(candidate_id, payload)` on the surviving
children: the candidate is the first marked survivor, replaced in place
(ids are unique in the store). -/
def replaceFirstMarked (new : Block) : List Block → List Block
  | [] => []
  | c :: rest =>
    if hasMark (blockText c) then new :: rest
    else c :: replaceFirstMarked new rest

/-- The container (non-inline) create branch of `handle_normal_block`
(source lines 297-347).  `freshId` is the id the Document Store assigns to an
appended child (the append payload itself carries the deep-copied parent
fields, source line 322). -/
def containerCreate (tr : Str → Str) (freshId : Nat) (sourceText : Str)
    (st : NodeState) : Option (NodeState × List Effect) :=
  match scanCreate none st.children with
  | none => none
  | some (cand, survivors, delEffects) =>
    match cand with
    | some (c, m) =>
      if (sourceText.length : Int) = m then
        some ({ st with children := survivors }, delEffects)
      else
        let payload := { c with richText := [composedMarkedText tr sourceText] }
        some ({ st with children := replaceFirstMarked payload survivors },
          delEffects ++ [.translateCall sourceText, .updateBlock c.id payload])
    | none =>
      let newChild := { st.block with richText := [composedMarkedText tr sourceText] }
      some ({ st with children := survivors ++ [{ newChild with id := freshId }] },
        delEffects ++ [.translateCall sourceText, .appendChild st.block.id newChild])

/-- The container revert branch (source lines 348-353): delete every marked
child. -/
def containerRevert (st : NodeState) : NodeState × List Effect :=
  ({ st with children := st.children.filter (fun c => !hasMark (blockText c)) },
   (st.children.filter (fun c => hasMark (blockText c))).map
     (fun c => .deleteBlock c.id))

/-- The inline create branch (source lines 269-288): append a separator run
and the translated run, persist the block. -/
def inlineCreate (tr : Str → Str) (sourceText : Str) (st : NodeState) :
    NodeState × List Effect :=
  let translated := tr sourceText
  let b' := { st.block with richText := st.block.richText ++ [divisionText, translated] }
  ({ st with block := b' }, [.translateCall sourceText, .updateBlock b'.id b'])

/-- The inline revert branch (source lines 289-295): the loop truncates the
run list at the first marker-bearing run (truncating in place ends the
iteration), then persists the block. -/
def inlineRevert (st : NodeState) : NodeState × List Effect :=
  let b' := { st.block with
              richText := st.block.richText.takeWhile (fun r => !hasMark r) }
  ({ st with block := b' }, [.updateBlock b'.id b'])

/-- `Converter.handle_normal_block` (source lines 249-353).  `now` is the
current time in minutes; `none` embeds an uncaught exception. -/
def handle_normal_block (tr : Str → Str) (now : Int) (freshId : Nat)
    (realtime create : Bool) (st : NodeState) :
    Option (NodeState × List Effect) :=
  if realtime ∧ st.block.lastEdited + 5 < now then some (st, [])
  else
    let sourceText := strip (blockText st.block)
    if sourceText = [] then some (st, [])
    else if st.block.btype ∈ inlineTypes then
      if create then
        if hasMark sourceText then some (st, [])
        else some (inlineCreate tr sourceText st)
      else
        if hasMark sourceText then some (inlineRevert st)
        else some (st, [])
    else
      if create then containerCreate tr freshId sourceText st
      else some (containerRevert st)

/-- The per-block dispatch of `Converter.convert_page` (source lines
368-372): a `child_page` block is handled as a title node via
`handle_page_block` (with no realtime filtering), everything else via
`handle_normal_block`. -/
def convertBlock (tr : Str → Str) (now : Int) (freshId : Nat)
    (realtime create : Bool) (st : NodeState) :
    Option (NodeState × List Effect) :=
  if st.block.btype = "child_page" then
    let r := handle_page_block tr create st.block.id st.block.pageTitle
    some ({ st with block := { st.block with pageTitle := r.1 } }, r.2)
  else
    handle_normal_block tr now freshId realtime create st

/-- The Document Store's tree of blocks, for the collection claims: a block
together with its stored children. -/
inductive PTree where
  | mk (val : Block) (kids : List PTree)

/-- The block at the root of a stored subtree. -/
def PTree.val : PTree → Block
  | .mk v _ => v

/-- The stored children of a subtree's root. -/
def PTree.kids : PTree → List PTree
  | .mk _ k => k

/-- Whether a node is a sub-page (`block["type"] == "child_page"`,
source line 160). -/
def isChildPage (t : PTree) : Bool := t.val.btype = "child_page"

/-- The `for block in blocks` loop of `NotionClient.get_blocks` (source
lines 159-162), which `extend`s the very list being iterated: `acc` is the
current full list, `rest` the yet-unvisited suffix.  For a `child_page`
element the recursively collected blocks are appended to both.  Fuel-
structured; `none` means the fuel ran out (the Python loop always
terminates because appended nodes are strictly deeper subtrees). -/
def getBlocksGo (includeSubpages : Bool) :
    Nat → List PTree → List PTree → Option (List PTree)
  | _, acc, [] => some acc
  | 0, _, _ :: _ => none
  | fuel + 1, acc, b :: rest =>
    if includeSubpages ∧ isChildPage b then
      match getBlocksGo includeSubpages fuel b.kids b.kids with
      | none => none
      | some extra => getBlocksGo includeSubpages fuel (acc ++ extra) (rest ++ extra)
    else getBlocksGo includeSubpages fuel acc rest

/-- `NotionClient.get_blocks` (source lines 149-164) on a stored subtree:
the paginated fetch yields the node's children, then the extending loop
runs over them. -/
def get_blocks (includeSubpages : Bool) (fuel : Nat) (t : PTree) :
    Option (List PTree) :=
  getBlocksGo includeSubpages fuel t.kids t.kids

/-- The identity translator, used in the concrete instances below. -/
def trIdent : Str → Str := fun s => s

/-! ### Lemmas about `dropWhile`, `strip` -/

theorem dropWhile_eq_self_of_all {p : Char → Bool} {s : Str}
    (h : ∀ c ∈ s, p c = false) : s.dropWhile p = s := by
  cases s with
  | nil => rfl
  | cons x xs => simp [List.dropWhile_cons, h x (List.mem_cons_self x xs)]

theorem mem_dropWhile_of_not {p : Char → Bool} {x : Char} (hx : p x = false) :
    ∀ {s : Str}, x ∈ s → x ∈ s.dropWhile p := by
  intro s h
  induction s with
  | nil => simp at h
  | cons y ys ih =>
    by_cases hy : p y
    · rw [List.dropWhile_cons_of_pos hy]
      rcases List.mem_cons.1 h with rfl | h'
      · rw [hy] at hx; exact absurd hx (by simp)
      · exact ih h'
    · rw [List.dropWhile_cons_of_neg hy]; exact h

theorem dropWhile_dropWhile_self {p : Char → Bool} :
    ∀ s : Str, (s.dropWhile p).dropWhile p = s.dropWhile p := by
  intro s
  induction s with
  | nil => rfl
  | cons x xs ih => by_cases h : p x <;> simp [List.dropWhile_cons, h, ih]

theorem dropWhile_append_of_ne_nil {p : Char → Bool} {a : Str} (b : Str)
    (h : a.dropWhile p ≠ []) : (a ++ b).dropWhile p = a.dropWhile p ++ b := by
  induction a with
  | nil => simp at h
  | cons x xs ih =>
    by_cases hx : p x
    · rw [List.dropWhile_cons_of_pos hx] at h
      rw [List.cons_append, List.dropWhile_cons_of_pos hx,
        List.dropWhile_cons_of_pos hx, ih h]
    · rw [List.dropWhile_cons_of_neg hx] at h ⊢
      rw [List.cons_append, List.dropWhile_cons_of_neg hx]

theorem dropWhile_append_of_nil {p : Char → Bool} {a : Str} (b : Str)
    (h : a.dropWhile p = []) : (a ++ b).dropWhile p = b.dropWhile p := by
  induction a with
  | nil => rfl
  | cons x xs ih =>
    by_cases hx : p x
    · rw [List.dropWhile_cons_of_pos hx] at h
      rw [List.cons_append, List.dropWhile_cons_of_pos hx, ih h]
    · rw [List.dropWhile_cons_of_neg hx] at h; simp at h

theorem lstrip_cons_of_space {c : Char} (s : Str) (h : isPySpace c = true) :
    lstrip (c :: s) = lstrip s := by
  simp [lstrip, List.dropWhile_cons, h]

theorem lstrip_cons_of_not {c : Char} (s : Str) (h : isPySpace c = false) :
    lstrip (c :: s) = c :: s := by
  simp [lstrip, List.dropWhile_cons, h]

theorem lstrip_lstrip (s : Str) : lstrip (lstrip s) = lstrip s :=
  dropWhile_dropWhile_self s

theorem rstrip_rstrip (s : Str) : rstrip (rstrip s) = rstrip s := by
  unfold rstrip
  rw [List.reverse_reverse, dropWhile_dropWhile_self]

theorem rstrip_append_of_ne_nil {b : Str} (a : Str) (h : rstrip b ≠ []) :
    rstrip (a ++ b) = a ++ rstrip b := by
  unfold rstrip at *
  have hb : b.reverse.dropWhile isPySpace ≠ [] := by
    intro hnil; rw [hnil] at h; exact h rfl
  rw [List.reverse_append, dropWhile_append_of_ne_nil _ hb, List.reverse_append,
    List.reverse_reverse]

theorem rstrip_append_of_nil {b : Str} (a : Str) (h : rstrip b = []) :
    rstrip (a ++ b) = rstrip a := by
  unfold rstrip at *
  have hb : b.reverse.dropWhile isPySpace = [] := by
    have := congrArg List.reverse h
    simpa using this
  rw [List.reverse_append, dropWhile_append_of_nil _ hb]

theorem strip_cons_of_space {c : Char} (s : Str) (h : isPySpace c = true) :
    strip (c :: s) = strip s := by
  unfold strip
  rw [lstrip_cons_of_space s h]

theorem lstrip_eq_self_of_all {s : Str} (h : ∀ c ∈ s, isPySpace c = false) :
    lstrip s = s := dropWhile_eq_self_of_all h

theorem rstrip_eq_self_of_all {s : Str} (h : ∀ c ∈ s, isPySpace c = false) :
    rstrip s = s := by
  unfold rstrip
  rw [dropWhile_eq_self_of_all (by intro c hc; exact h c (List.mem_reverse.1 hc)),
    List.reverse_reverse]

theorem strip_eq_self_of_all {s : Str} (h : ∀ c ∈ s, isPySpace c = false) :
    strip s = s := by
  unfold strip
  rw [lstrip_eq_self_of_all h, rstrip_eq_self_of_all h]

theorem mem_lstrip {x : Char} {s : Str} (hx : isPySpace x = false)
    (h : x ∈ s) : x ∈ lstrip s := mem_dropWhile_of_not hx h

theorem mem_rstrip {x : Char} {s : Str} (hx : isPySpace x = false)
    (h : x ∈ s) : x ∈ rstrip s := by
  unfold rstrip
  rw [List.mem_reverse]
  exact mem_dropWhile_of_not hx (List.mem_reverse.2 h)

theorem mem_strip {x : Char} {s : Str} (hx : isPySpace x = false)
    (h : x ∈ s) : x ∈ strip s := mem_rstrip hx (mem_lstrip hx h)

theorem head_false_of_lstrip_eq_self {x : Char} {xs : Str}
    (h : lstrip (x :: xs) = x :: xs) : isPySpace x = false := by
  cases hpx : isPySpace x with
  | false => rfl
  | true =>
    rw [lstrip_cons_of_space xs hpx] at h
    have hle : (lstrip xs).length ≤ xs.length :=
      (List.dropWhile_suffix isPySpace).length_le
    rw [h] at hle
    simp at hle

theorem prefix_rstrip (s : Str) : rstrip s <+: s := by
  have h := List.dropWhile_suffix (l := s.reverse) (p := isPySpace)
  have h2 := List.reverse_prefix.2 h
  unfold rstrip
  simpa using h2

theorem lstrip_rstrip_of_lstrip_eq_self {t : Str} (h : lstrip t = t) :
    lstrip (rstrip t) = rstrip t := by
  obtain ⟨v, hv⟩ := prefix_rstrip t
  cases hr : rstrip t with
  | nil => rfl
  | cons y ys =>
    rw [hr] at hv
    cases t with
    | nil => simp [rstrip] at hr
    | cons x xs =>
      rw [List.cons_append] at hv
      injection hv with h1 h2
      subst h1
      exact lstrip_cons_of_not ys (head_false_of_lstrip_eq_self h)

theorem strip_idem (s : Str) : strip (strip s) = strip s := by
  unfold strip
  rw [lstrip_rstrip_of_lstrip_eq_self (lstrip_lstrip s), rstrip_rstrip]

/-! ### Lemmas about `splitOnChar` and `getLastD` -/

theorem splitOnChar_ne_nil (c : Char) (s : Str) : splitOnChar c s ≠ [] := by
  induction s with
  | nil => simp [splitOnChar]
  | cons x xs ih =>
    by_cases hx : x = c
    · simp [splitOnChar, hx]
    · simp only [splitOnChar, if_neg hx]
      cases h : splitOnChar c xs with
      | nil => simp
      | cons hh tt => simp

theorem splitOnChar_of_not_mem {c : Char} {s : Str} (h : c ∉ s) :
    splitOnChar c s = [s] := by
  induction s with
  | nil => rfl
  | cons x xs ih =>
    have hx : ¬x = c := by rintro rfl; exact h (List.mem_cons_self _ _)
    have hxs : c ∉ xs := fun hm => h (List.mem_cons_of_mem _ hm)
    simp only [splitOnChar, if_neg hx, ih hxs]

theorem splitOnChar_cons_self (c : Char) (xs : Str) :
    splitOnChar c (c :: xs) = [] :: splitOnChar c xs := by
  simp [splitOnChar]

theorem splitOnChar_cons_ne {x c : Char} (hx : ¬x = c) {xs : Str} {hh : Str}
    {tt : List Str} (h : splitOnChar c xs = hh :: tt) :
    splitOnChar c (x :: xs) = (x :: hh) :: tt := by
  simp only [splitOnChar, if_neg hx, h]

theorem splitOnChar_append_cons (c : Char) (xs ys : Str) :
    splitOnChar c (xs ++ c :: ys) = splitOnChar c xs ++ splitOnChar c ys := by
  induction xs with
  | nil => simp [splitOnChar_cons_self, splitOnChar]
  | cons x xt ih =>
    by_cases hx : x = c
    · subst hx
      rw [List.cons_append, splitOnChar_cons_self, ih, splitOnChar_cons_self,
        List.cons_append]
    · cases h : splitOnChar c xt with
      | nil => exact absurd h (splitOnChar_ne_nil c xt)
      | cons hh tt =>
        have h' : splitOnChar c (xt ++ c :: ys) = hh :: (tt ++ splitOnChar c ys) := by
          rw [ih, h]; rfl
        rw [List.cons_append, splitOnChar_cons_ne hx h',
          splitOnChar_cons_ne hx h, List.cons_append]

theorem getLastD_irrel {l : List Str} (d d' : Str) (h : l ≠ []) :
    l.getLastD d = l.getLastD d' := by
  cases l with
  | nil => exact absurd rfl h
  | cons x xs => rw [List.getLastD_cons, List.getLastD_cons]

theorem getLastD_append_of_ne_nil {l₂ : List Str} (l₁ : List Str) (d : Str)
    (h : l₂ ≠ []) : (l₁ ++ l₂).getLastD d = l₂.getLastD d := by
  induction l₁ generalizing d with
  | nil => rfl
  | cons x xs ih =>
    rw [List.cons_append, List.getLastD_cons, ih x, getLastD_irrel x d h]

/-! ### Lemmas about digits, `pad4` and `parsePyInt` -/

theorem digitVal_digitChar {d : Nat} (h : d < 10) :
    digitVal (digitChar d) = d := by
  interval_cases d <;> decide

theorem isDigitCh_digitChar {d : Nat} (h : d < 10) :
    isDigitCh (digitChar d) = true := by
  interval_cases d <;> decide

theorem not_space_of_digit {c : Char} (h : isDigitCh c = true) :
    isPySpace c = false := by
  have h' : 48 ≤ c.toNat ∧ c.toNat ≤ 57 := by simpa [isDigitCh] using h
  cases hs : isPySpace c with
  | false => rfl
  | true =>
    simp only [isPySpace, Bool.or_eq_true, beq_iff_eq] at hs
    rcases hs with ((((rfl | rfl) | rfl) | rfl) | rfl) | rfl <;>
      revert h' <;> decide

theorem digit_ne_mark {c : Char} (h : isDigitCh c = true) :
    c ≠ completionMark := by
  rintro rfl; revert h; decide

theorem natDigitsAux_digits :
    ∀ fuel n, n < fuel → ∀ c ∈ natDigitsAux fuel n, isDigitCh c = true := by
  intro fuel
  induction fuel with
  | zero => intro n h; omega
  | succ f ih =>
    intro n h c hc
    by_cases h10 : n < 10
    · simp only [natDigitsAux, if_pos h10, List.mem_singleton] at hc
      subst hc; exact isDigitCh_digitChar h10
    · simp only [natDigitsAux, if_neg h10] at hc
      have hdiv : n / 10 < f := by
        have := Nat.div_lt_self (by omega : 0 < n) (by omega : 1 < 10)
        omega
      rcases List.mem_append.1 hc with hc | hc
      · exact ih (n / 10) hdiv c hc
      · simp only [List.mem_singleton] at hc
        subst hc; exact isDigitCh_digitChar (Nat.mod_lt _ (by omega))

theorem natDigitsAux_ne_nil (fuel n : Nat) (h : n < fuel) :
    natDigitsAux fuel n ≠ [] := by
  cases fuel with
  | zero => omega
  | succ f =>
    by_cases h10 : n < 10 <;> simp [natDigitsAux, h10]

theorem foldl_natDigitsAux :
    ∀ fuel n, n < fuel → ∀ a : Nat,
      (natDigitsAux fuel n).foldl (fun a c => a * 10 + digitVal c) a =
        a * 10 ^ (natDigitsAux fuel n).length + n := by
  intro fuel
  induction fuel with
  | zero => intro n h; omega
  | succ f ih =>
    intro n h a
    by_cases h10 : n < 10
    · simp [natDigitsAux, h10, digitVal_digitChar h10]
    · have hdiv : n / 10 < f := by
        have := Nat.div_lt_self (by omega : 0 < n) (by omega : 1 < 10)
        omega
      simp only [natDigitsAux, if_neg h10, List.foldl_append, List.foldl_cons,
        List.foldl_nil, List.length_append, List.length_cons, List.length_nil]
      rw [ih (n / 10) hdiv a, digitVal_digitChar (Nat.mod_lt _ (by omega))]
      rw [show (natDigitsAux f (n / 10)).length + (0 + 1) =
        (natDigitsAux f (n / 10)).length + 1 by omega, pow_succ]
      generalize (10 : Nat) ^ (natDigitsAux f (n / 10)).length = k
      have hdm := Nat.div_add_mod n 10
      ring_nf
      omega

theorem parseDigits_natDigits (n : Nat) : parseDigits (natDigits n) = n := by
  have := foldl_natDigitsAux (n + 1) n (Nat.lt_succ_self n) 0
  simpa [parseDigits, natDigits] using this

theorem parseDigits_zeros_append (k : Nat) (s : Str) :
    parseDigits (List.replicate k '0' ++ s) = parseDigits s := by
  induction k with
  | zero => rfl
  | succ m ih =>
    have h0 : ((0 : Nat) * 10 + digitVal '0') = 0 := by decide
    simp only [parseDigits, List.replicate_succ, List.cons_append,
      List.foldl_cons, h0] at *
    exact ih

theorem pad4_all_digits (n : Nat) : ∀ c ∈ pad4 n, isDigitCh c = true := by
  intro c hc
  rcases List.mem_append.1 hc with hc | hc
  · rw [List.eq_of_mem_replicate hc]; decide
  · exact natDigitsAux_digits (n + 1) n (Nat.lt_succ_self n) c hc

theorem pad4_ne_nil (n : Nat) : pad4 n ≠ [] := by
  intro h
  rcases List.append_eq_nil.1 h with ⟨-, h2⟩
  exact natDigitsAux_ne_nil (n + 1) n (Nat.lt_succ_self n) h2

theorem parseDigits_pad4 (n : Nat) : parseDigits (pad4 n) = n := by
  unfold pad4
  rw [parseDigits_zeros_append]
  exact parseDigits_natDigits n

theorem parseNatStr_of_digits {s : Str} (hne : s ≠ [])
    (hd : ∀ c ∈ s, isDigitCh c = true) :
    parseNatStr s = some (parseDigits s) := by
  unfold parseNatStr
  rw [if_pos ⟨hne, hd⟩]

theorem parsePyInt_of_digits {s : Str} (hne : s ≠ [])
    (hd : ∀ c ∈ s, isDigitCh c = true) :
    parsePyInt s = some ((parseDigits s : Nat) : Int) := by
  cases s with
  | nil => exact absurd rfl hne
  | cons c rest =>
    have hc := hd c (List.mem_cons_self _ _)
    have hcm : ¬c = '-' := by rintro rfl; revert hc; decide
    have hcp : ¬c = '+' := by rintro rfl; revert hc; decide
    simp only [parsePyInt, if_neg hcm, if_neg hcp,
      parseNatStr_of_digits (by simp) hd]
    rfl

theorem parsePyInt_pad4 (n : Nat) : parsePyInt (pad4 n) = some (n : Int) := by
  rw [parsePyInt_of_digits (pad4_ne_nil n) (pad4_all_digits n),
    parseDigits_pad4]

theorem mark_not_mem_pad4 (n : Nat) : completionMark ∉ pad4 n :=
  fun h => digit_ne_mark (pad4_all_digits n _ h) rfl

theorem strip_pad4 (n : Nat) : strip (pad4 n) = pad4 n :=
  strip_eq_self_of_all fun c hc => not_space_of_digit (pad4_all_digits n c hc)

/-! ### Lemmas about `hasMark`, `blockText`, `parseTail` -/

theorem hasMark_iff {s : Str} : hasMark s = true ↔ completionMark ∈ s := by
  simp [hasMark]

theorem hasMark_false_iff {s : Str} :
    hasMark s = false ↔ completionMark ∉ s := by
  simp [hasMark]

theorem hasMark_strip_of {s : Str} (h : hasMark s = true) :
    hasMark (strip s) = true := by
  rw [hasMark_iff] at *
  exact mem_strip (by decide) h

theorem strip_ne_nil_of_mark {s : Str} (h : hasMark s = true) :
    strip s ≠ [] := by
  have h2 := hasMark_strip_of h
  rw [hasMark_iff] at h2
  exact List.ne_nil_of_mem h2

theorem hasMark_append_markText (t : Str) (n : Nat) :
    hasMark (t ++ containerMarkText n) = true := by
  rw [hasMark_iff, List.mem_append]
  exact Or.inr (by simp [containerMarkText])

theorem parseTail_append_markText (t : Str) (n : Nat) :
    parseTail (t ++ containerMarkText n) = some (n : Int) := by
  have hrw : t ++ containerMarkText n =
      (t ++ [' ']) ++ completionMark :: (' ' :: pad4 n) := by
    simp [containerMarkText]
  have hnm : completionMark ∉ (' ' :: pad4 n) := by
    intro h
    rcases List.mem_cons.1 h with h | h
    · revert h; decide
    · exact mark_not_mem_pad4 n h
  rw [parseTail, splitMark, hrw, splitOnChar_append_cons,
    splitOnChar_of_not_mem hnm,
    getLastD_append_of_ne_nil _ _ (by simp),
    List.getLastD_cons, List.getLastD_nil,
    strip_cons_of_space _ (by decide), strip_pad4, parsePyInt_pad4]

theorem foldl_append_eq_append_flatten :
    ∀ (l : List Str) (a : Str), l.foldl (fun t r => t ++ r) a = a ++ l.flatten := by
  intro l
  induction l with
  | nil => intro a; simp
  | cons x xs ih => intro a; simp [List.foldl_cons, ih]

theorem blockText_eq_flatten {b : Block} (h : b.btype ∈ richTextTypes) :
    blockText b = b.richText.flatten := by
  unfold blockText
  rw [if_pos h, foldl_append_eq_append_flatten]
  simp

theorem blockText_eq_nil {b : Block} (h : b.btype ∉ richTextTypes) :
    blockText b = [] := by
  unfold blockText
  rw [if_neg h]

theorem btype_mem_rich_of_mark {b : Block} (h : hasMark (blockText b) = true) :
    b.btype ∈ richTextTypes := by
  by_contra hn
  rw [blockText_eq_nil hn] at h
  simp [hasMark] at h

theorem inline_mem_rich {t : String} (h : t ∈ inlineTypes) :
    t ∈ richTextTypes := by
  fin_cases h <;> simp [richTextTypes]

/-! ### Characterization of the container child scan -/

theorem scanCreate_some (p : Block × Int) (l : List Block) :
    scanCreate (some p) l =
      some (some p, l.filter (fun c => !hasMark (blockText c)),
        (l.filter (fun c => hasMark (blockText c))).map
          (fun c => Effect.deleteBlock c.id)) := by
  induction l with
  | nil => simp [scanCreate]
  | cons c rest ih =>
    by_cases hc : hasMark (blockText c)
    · simp [scanCreate, hc, ih]
    · simp [scanCreate, hc, ih]

theorem scanCreate_none_clean {l : List Block}
    (h : ∀ c ∈ l, hasMark (blockText c) = false) :
    scanCreate none l = some (none, l, []) := by
  induction l with
  | nil => rfl
  | cons c rest ih =>
    have hc := h c (List.mem_cons_self _ _)
    simp [scanCreate, hc, ih fun x hx => h x (List.mem_cons_of_mem _ hx)]

theorem scanCreate_none_decomp {a : List Block} {c : Block} {m : Int}
    (b : List Block) (ha : ∀ x ∈ a, hasMark (blockText x) = false)
    (hc : hasMark (blockText c) = true)
    (hp : parseTail (blockText c) = some m) :
    scanCreate none (a ++ c :: b) =
      some (some (c, m), a ++ c :: b.filter (fun x => !hasMark (blockText x)),
        (b.filter (fun x => hasMark (blockText x))).map
          (fun x => Effect.deleteBlock x.id)) := by
  induction a with
  | nil => simp [scanCreate, hc, hp, scanCreate_some]
  | cons d rest ih =>
    have hd := ha d (List.mem_cons_self _ _)
    simp [scanCreate, hd, ih fun x hx => ha x (List.mem_cons_of_mem _ hx)]

theorem scanCreate_none_eq_none {l surv : List Block} {dels : List Effect}
    (h : scanCreate none l = some (none, surv, dels)) :
    surv = l ∧ dels = [] ∧ ∀ c ∈ l, hasMark (blockText c) = false := by
  induction l generalizing surv dels with
  | nil =>
    simp [scanCreate] at h
    exact ⟨h.1, h.2, by simp⟩
  | cons c rest ih =>
    by_cases hc : hasMark (blockText c)
    · cases hp : parseTail (blockText c) with
      | none => simp [scanCreate, hc, hp] at h
      | some m => simp [scanCreate, hc, hp, scanCreate_some] at h
    · cases hs : scanCreate none rest with
      | none => simp [scanCreate, hc, hs] at h
      | some t =>
        obtain ⟨r, cs, es⟩ := t
        simp only [scanCreate, hc, Bool.false_eq_true, if_false, hs,
          Option.some.injEq, Prod.mk.injEq] at h
        obtain ⟨hr, hsurv, hdels⟩ := h
        subst hr
        obtain ⟨h1, h2, h3⟩ := ih hs
        refine ⟨by rw [← hsurv, h1], by rw [← hdels, h2], ?_⟩
        intro x hx
        rcases List.mem_cons.1 hx with rfl | hx
        · simpa using hc
        · exact h3 x hx

theorem scanCreate_none_eq_some {l surv : List Block} {c : Block} {m : Int}
    {dels : List Effect}
    (h : scanCreate none l = some (some (c, m), surv, dels)) :
    ∃ a b, l = a ++ c :: b ∧ (∀ x ∈ a, hasMark (blockText x) = false) ∧
      hasMark (blockText c) = true ∧ parseTail (blockText c) = some m ∧
      surv = a ++ c :: b.filter (fun x => !hasMark (blockText x)) ∧
      dels = (b.filter (fun x => hasMark (blockText x))).map
        (fun x => Effect.deleteBlock x.id) := by
  induction l generalizing surv dels with
  | nil => simp [scanCreate] at h
  | cons d rest ih =>
    by_cases hd : hasMark (blockText d)
    · cases hp : parseTail (blockText d) with
      | none => simp [scanCreate, hd, hp] at h
      | some m' =>
        rw [show scanCreate none (d :: rest) =
          some (some (d, m'), d :: rest.filter (fun x => !hasMark (blockText x)),
            (rest.filter (fun x => hasMark (blockText x))).map
              (fun x => Effect.deleteBlock x.id)) from ?_] at h
        · simp only [Option.some.injEq, Prod.mk.injEq, Option.some.injEq] at h
          obtain ⟨⟨rfl, rfl⟩, hsurv, hdels⟩ := h
          exact ⟨[], rest, rfl, by simp, hd, hp, hsurv.symm, hdels.symm⟩
        · simp [scanCreate, hd, hp, scanCreate_some]
    · cases hs : scanCreate none rest with
      | none => simp [scanCreate, hd, hs] at h
      | some t =>
        obtain ⟨r, cs, es⟩ := t
        simp only [scanCreate, hd, Bool.false_eq_true, if_false, hs,
          Option.some.injEq, Prod.mk.injEq] at h
        obtain ⟨hr, hsurv, hdels⟩ := h
        subst hr
        obtain ⟨a, b, rfl, ha, hc, hm, hs', hd'⟩ := ih hs
        refine ⟨d :: a, b, rfl, ?_, hc, hm, ?_, by rw [← hdels, hd']⟩
        · intro x hx
          rcases List.mem_cons.1 hx with rfl | hx
          · simpa using hd
          · exact ha x hx
        · rw [← hsurv, hs']; rfl

theorem replaceFirstMarked_decomp {a : List Block} {c new : Block}
    (b : List Block) (ha : ∀ x ∈ a, hasMark (blockText x) = false)
    (hc : hasMark (blockText c) = true) :
    replaceFirstMarked new (a ++ c :: b) = a ++ new :: b := by
  induction a with
  | nil => simp [replaceFirstMarked, hc]
  | cons d rest ih =>
    have hd := ha d (List.mem_cons_self _ _)
    simp [replaceFirstMarked, hd,
      ih fun x hx => ha x (List.mem_cons_of_mem _ hx)]

/-! ### Branch lemmas for `handle_normal_block` -/

theorem hnb_stale {tr : Str → Str} {now : Int} {fid : Nat} {cr : Bool}
    {st : NodeState} (h : st.block.lastEdited + 5 < now) :
    handle_normal_block tr now fid true cr st = some (st, []) := by
  simp [handle_normal_block, h]

theorem hnb_empty {tr : Str → Str} {now : Int} {fid : Nat} {rt cr : Bool}
    {st : NodeState} (h : strip (blockText st.block) = []) :
    handle_normal_block tr now fid rt cr st = some (st, []) := by
  unfold handle_normal_block
  split
  · rfl
  · simp [h]

theorem strip_subset (s : Str) : ∀ x ∈ strip s, x ∈ s := by
  intro x hx
  have h1 : x ∈ lstrip s := (prefix_rstrip (lstrip s)).subset hx
  exact (List.dropWhile_suffix isPySpace).subset h1

theorem btype_rich_of_strip_ne {b : Block} (h : strip (blockText b) ≠ []) :
    b.btype ∈ richTextTypes := by
  by_contra hn
  rw [blockText_eq_nil hn] at h
  exact h rfl

theorem blockText_fields {b b' : Block} (ht : b'.btype = b.btype)
    (hr : b'.richText = b.richText) : blockText b' = blockText b := by
  unfold blockText
  rw [ht, hr]

theorem blockText_single {b : Block} {x : Str} (h : b.btype ∈ richTextTypes) :
    blockText { b with richText := [x] } = x := by
  rw [blockText_eq_flatten (show ({ b with richText := [x] } : Block).btype
    ∈ richTextTypes from h)]
  simp

theorem filter_unmarked_of_clean {l : List Block}
    (h : ∀ x ∈ l, hasMark (blockText x) = false) :
    l.filter (fun x => !hasMark (blockText x)) = l :=
  List.filter_eq_self.2 fun a ha => by simp [h a ha]

theorem filter_marked_of_clean {l : List Block}
    (h : ∀ x ∈ l, hasMark (blockText x) = false) :
    l.filter (fun x => hasMark (blockText x)) = [] := by
  rw [List.filter_eq_nil_iff]
  intro a ha
  simp [h a ha]

theorem clean_of_filter_unmarked {l : List Block} :
    ∀ x ∈ l.filter (fun x => !hasMark (blockText x)),
      hasMark (blockText x) = false := by
  intro x hx
  have h2 := (List.mem_filter.1 hx).2
  simpa using h2

theorem composedMarkedText_eq (tr : Str → Str) (s : Str) :
    composedMarkedText tr s =
      (if ((tr s).length : Int) >
          (maxTextLength : Int) - ((containerMarkText s.length).length : Int)
        then pyTake (tr s)
          ((maxTextLength : Int) - ((containerMarkText s.length).length : Int))
        else tr s) ++ containerMarkText s.length := rfl

theorem hasMark_composed (tr : Str → Str) (s : Str) :
    hasMark (composedMarkedText tr s) = true := by
  rw [composedMarkedText_eq]
  exact hasMark_append_markText _ _

theorem parseTail_composed (tr : Str → Str) (s : Str) :
    parseTail (composedMarkedText tr s) = some (s.length : Int) := by
  rw [composedMarkedText_eq]
  exact parseTail_append_markText _ _

theorem containerCreate_block {tr : Str → Str} {fid : Nat} {src : Str}
    {st st1 : NodeState} {es : List Effect}
    (h : containerCreate tr fid src st = some (st1, es)) :
    st1.block = st.block := by
  unfold containerCreate at h
  cases hs : scanCreate none st.children with
  | none => rw [hs] at h; cases h
  | some t =>
    obtain ⟨cand, surv, dels⟩ := t
    rw [hs] at h
    dsimp only at h
    cases cand with
    | none =>
      dsimp only at h
      simp only [Option.some.injEq, Prod.mk.injEq] at h
      rw [← h.1]
    | some p =>
      obtain ⟨c, m⟩ := p
      dsimp only at h
      by_cases he : (src.length : Int) = m
      · rw [if_pos he] at h
        simp only [Option.some.injEq, Prod.mk.injEq] at h
        rw [← h.1]
      · rw [if_neg he] at h
        simp only [Option.some.injEq, Prod.mk.injEq] at h
        rw [← h.1]

theorem blockText_of_single {b : Block} {x : Str}
    (ht : b.btype ∈ richTextTypes) (hr : b.richText = [x]) :
    blockText b = x := by
  rw [blockText_eq_flatten ht, hr]
  simp

theorem containerCreate_noop {tr : Str → Str} {fid : Nat} {src : Str}
    {st : NodeState} {a b : List Block} {c : Block}
    (hch : st.children = a ++ c :: b)
    (ha : ∀ x ∈ a, hasMark (blockText x) = false)
    (hb : ∀ x ∈ b, hasMark (blockText x) = false)
    (hc : hasMark (blockText c) = true)
    (hp : parseTail (blockText c) = some (src.length : Int)) :
    containerCreate tr fid src st = some (st, []) := by
  have hscan := scanCreate_none_decomp (a := a) b ha hc hp
  rw [filter_unmarked_of_clean hb, filter_marked_of_clean hb] at hscan
  rw [← hch] at hscan
  unfold containerCreate
  rw [hscan]
  dsimp only
  rw [if_pos rfl]
  rfl

theorem containerCreate_idem {tr : Str → Str} {fid fid2 : Nat} {src : Str}
    {st st1 : NodeState} {es1 : List Effect}
    (hrich : st.block.btype ∈ richTextTypes)
    (h : containerCreate tr fid src st = some (st1, es1)) :
    containerCreate tr fid2 src st1 = some (st1, []) := by
  unfold containerCreate at h
  cases hs : scanCreate none st.children with
  | none => rw [hs] at h; cases h
  | some t =>
    obtain ⟨cand, surv, dels⟩ := t
    rw [hs] at h
    dsimp only at h
    cases cand with
    | none =>
      dsimp only at h
      obtain ⟨hsurv, -, hclean⟩ := scanCreate_none_eq_none hs
      simp only [Option.some.injEq, Prod.mk.injEq] at h
      obtain ⟨h1, -⟩ := h
      have hbt : blockText (⟨fid, st.block.btype, [composedMarkedText tr src],
          st.block.lastEdited, st.block.pageTitle⟩ : Block) =
          composedMarkedText tr src := blockText_of_single hrich rfl
      have hch : st1.children = st.children ++
          (⟨fid, st.block.btype, [composedMarkedText tr src],
            st.block.lastEdited, st.block.pageTitle⟩ : Block) :: [] := by
        rw [← h1, hsurv]
      exact containerCreate_noop hch hclean (by simp)
        (by rw [hbt]; exact hasMark_composed tr src)
        (by rw [hbt]; exact parseTail_composed tr src)
    | some p =>
      obtain ⟨c, m⟩ := p
      obtain ⟨a, b, hl, ha, hc, hm, hsurv, hdels⟩ := scanCreate_none_eq_some hs
      dsimp only at h
      have hbf : ∀ x ∈ b.filter (fun x => !hasMark (blockText x)),
          hasMark (blockText x) = false := clean_of_filter_unmarked
      by_cases he : (src.length : Int) = m
      · rw [if_pos he] at h
        simp only [Option.some.injEq, Prod.mk.injEq] at h
        obtain ⟨h1, -⟩ := h
        have hch : st1.children =
            a ++ c :: b.filter (fun x => !hasMark (blockText x)) := by
          rw [← h1, hsurv]
        exact containerCreate_noop hch ha hbf hc (by rw [hm, ← he])
      · rw [if_neg he] at h
        simp only [Option.some.injEq, Prod.mk.injEq] at h
        obtain ⟨h1, -⟩ := h
        have hcrich : c.btype ∈ richTextTypes := btype_mem_rich_of_mark hc
        have hbt : blockText (⟨c.id, c.btype, [composedMarkedText tr src],
            c.lastEdited, c.pageTitle⟩ : Block) =
            composedMarkedText tr src := blockText_of_single hcrich rfl
        have hch : st1.children = a ++
            (⟨c.id, c.btype, [composedMarkedText tr src],
              c.lastEdited, c.pageTitle⟩ : Block) ::
              b.filter (fun x => !hasMark (blockText x)) := by
          rw [← h1, hsurv]
          exact replaceFirstMarked_decomp _ ha hc
        exact containerCreate_noop hch ha hbf
          (by rw [hbt]; exact hasMark_composed tr src)
          (by rw [hbt]; exact parseTail_composed tr src)

theorem hnb_main {tr : Str → Str} {now : Int} {fid : Nat} {cr : Bool}
    {st : NodeState} (hne : strip (blockText st.block) ≠ []) :
    handle_normal_block tr now fid false cr st =
      (if st.block.btype ∈ inlineTypes then
        if cr then
          if hasMark (strip (blockText st.block)) then some (st, [])
          else some (inlineCreate tr (strip (blockText st.block)) st)
        else
          if hasMark (strip (blockText st.block)) then some (inlineRevert st)
          else some (st, [])
      else
        if cr then containerCreate tr fid (strip (blockText st.block)) st
        else some (containerRevert st)) := by
  unfold handle_normal_block
  rw [if_neg (by simp)]
  simp only [hne, if_false]

theorem hnb_inline_create_marked {tr : Str → Str} {now : Int} {fid : Nat}
    {st : NodeState} (hne : strip (blockText st.block) ≠ [])
    (hin : st.block.btype ∈ inlineTypes)
    (hm : hasMark (strip (blockText st.block)) = true) :
    handle_normal_block tr now fid false true st = some (st, []) := by
  rw [hnb_main hne, if_pos hin]
  simp [hm]

theorem hnb_inline_create_unmarked {tr : Str → Str} {now : Int} {fid : Nat}
    {st : NodeState} (hne : strip (blockText st.block) ≠ [])
    (hin : st.block.btype ∈ inlineTypes)
    (hm : hasMark (strip (blockText st.block)) = false) :
    handle_normal_block tr now fid false true st =
      some (inlineCreate tr (strip (blockText st.block)) st) := by
  rw [hnb_main hne, if_pos hin]
  simp [hm]

theorem hnb_inline_revert_marked {tr : Str → Str} {now : Int} {fid : Nat}
    {st : NodeState} (hne : strip (blockText st.block) ≠ [])
    (hin : st.block.btype ∈ inlineTypes)
    (hm : hasMark (strip (blockText st.block)) = true) :
    handle_normal_block tr now fid false false st = some (inlineRevert st) := by
  rw [hnb_main hne, if_pos hin]
  simp [hm]

theorem hnb_inline_revert_unmarked {tr : Str → Str} {now : Int} {fid : Nat}
    {st : NodeState} (hne : strip (blockText st.block) ≠ [])
    (hin : st.block.btype ∈ inlineTypes)
    (hm : hasMark (strip (blockText st.block)) = false) :
    handle_normal_block tr now fid false false st = some (st, []) := by
  rw [hnb_main hne, if_pos hin]
  simp [hm]

theorem hnb_container_create {tr : Str → Str} {now : Int} {fid : Nat}
    {st : NodeState} (hne : strip (blockText st.block) ≠ [])
    (hni : st.block.btype ∉ inlineTypes) :
    handle_normal_block tr now fid false true st =
      containerCreate tr fid (strip (blockText st.block)) st := by
  rw [hnb_main hne, if_neg hni]
  simp

theorem hnb_container_revert {tr : Str → Str} {now : Int} {fid : Nat}
    {st : NodeState} (hne : strip (blockText st.block) ≠ [])
    (hni : st.block.btype ∉ inlineTypes) :
    handle_normal_block tr now fid false false st =
      some (containerRevert st) := by
  rw [hnb_main hne, if_neg hni]
  simp

theorem hnb_not_stale {tr : Str → Str} {now : Int} {fid : Nat} {cr : Bool}
    {st : NodeState} (h : ¬st.block.lastEdited + 5 < now) :
    handle_normal_block tr now fid true cr st =
      handle_normal_block tr now fid false cr st := by
  unfold handle_normal_block
  have hA : ¬((true = true) ∧ st.block.lastEdited + 5 < now) := by simp [h]
  have hB : ¬((false = true) ∧ st.block.lastEdited + 5 < now) := by simp
  rw [if_neg hA, if_neg hB]

theorem hpb_create_marked {tr : Str → Str} {pid : Nat} {t : Str}
    (h : hasMark (strip t) = true) :
    handle_page_block tr true pid t = (t, []) := by
  unfold handle_page_block
  simp [h]

theorem hpb_create_unmarked {tr : Str → Str} {pid : Nat} {t : Str}
    (h : hasMark (strip t) = false) :
    handle_page_block tr true pid t =
      (tr (strip t) ++ divisionText ++ strip t,
       [.translateCall (strip t),
        .updateTitle pid (tr (strip t) ++ divisionText ++ strip t)]) := by
  unfold handle_page_block
  simp [h]

theorem hpb_revert_marked {tr : Str → Str} {pid : Nat} {t : Str}
    (h : hasMark (strip t) = true) :
    handle_page_block tr false pid t =
      (strip ((splitMark (strip t)).getD 1 []),
       [.updateTitle pid (strip ((splitMark (strip t)).getD 1 []))]) := by
  unfold handle_page_block
  simp [h]

theorem hpb_revert_unmarked {tr : Str → Str} {pid : Nat} {t : Str}
    (h : hasMark (strip t) = false) :
    handle_page_block tr false pid t = (t, []) := by
  unfold handle_page_block
  simp [h]

theorem convertBlock_child_page {tr : Str → Str} {now : Int} {fid : Nat}
    {rt cr : Bool} {st : NodeState} (h : st.block.btype = "child_page") :
    convertBlock tr now fid rt cr st =
      some ({ st with block := { st.block with pageTitle :=
        (handle_page_block tr cr st.block.id st.block.pageTitle).1 } },
        (handle_page_block tr cr st.block.id st.block.pageTitle).2) := by
  unfold convertBlock
  rw [if_pos h]

theorem hasMark_divisionText : hasMark divisionText = true := by decide

theorem lstrip_append_mark (u w : Str) :
    lstrip (u ++ completionMark :: w) = lstrip u ++ completionMark :: w := by
  by_cases h : lstrip u = []
  · have h2 : lstrip (u ++ completionMark :: w) = lstrip (completionMark :: w) :=
      dropWhile_append_of_nil _ h
    rw [h2, lstrip_cons_of_not _ (by decide), h]
    rfl
  · exact dropWhile_append_of_ne_nil _ h

theorem title_revert_extract {u v : Str} (hu : completionMark ∉ u)
    (hv : completionMark ∉ v) (hsv : strip v = v) :
    strip ((splitMark (strip (u ++ divisionText ++ v))).getD 1 []) = v := by
  have hassoc : u ++ divisionText ++ v =
      (u ++ [' ']) ++ completionMark :: (' ' :: v) := by
    simp [divisionText]
  rw [hassoc]
  have hls : lstrip ((u ++ [' ']) ++ completionMark :: (' ' :: v)) =
      lstrip (u ++ [' ']) ++ completionMark :: (' ' :: v) :=
    lstrip_append_mark _ _
  have hLnm : completionMark ∉ lstrip (u ++ [' ']) := by
    intro hmem
    have hmem2 := (List.dropWhile_suffix isPySpace).subset hmem
    rcases List.mem_append.1 hmem2 with h' | h'
    · exact hu h'
    · revert h'; decide
  rcases eq_or_ne v [] with rfl | hvne
  · have hrs : strip ((u ++ [' ']) ++ completionMark :: (' ' :: [])) =
        lstrip (u ++ [' ']) ++ [completionMark] := by
      show rstrip (lstrip _) = _
      rw [hls]
      rw [show lstrip (u ++ [' ']) ++ completionMark :: (' ' :: []) =
        (lstrip (u ++ [' ']) ++ [completionMark]) ++ [' '] by simp]
      rw [rstrip_append_of_nil _ (by decide)]
      rw [rstrip_append_of_ne_nil _
        (show rstrip [completionMark] ≠ [] from by decide)]
      rw [show rstrip [completionMark] = [completionMark] from by decide]
    rw [hrs, splitMark]
    rw [show lstrip (u ++ [' ']) ++ [completionMark] =
      lstrip (u ++ [' ']) ++ completionMark :: [] from rfl]
    rw [splitOnChar_append_cons, splitOnChar_of_not_mem hLnm]
    rfl
  · have hrv : rstrip v = v := by
      conv_lhs => rw [← hsv]
      show rstrip (rstrip (lstrip v)) = v
      rw [rstrip_rstrip]
      exact hsv
    have hrs : strip ((u ++ [' ']) ++ completionMark :: (' ' :: v)) =
        lstrip (u ++ [' ']) ++ completionMark :: (' ' :: v) := by
      show rstrip (lstrip _) = _
      rw [hls]
      rw [show lstrip (u ++ [' ']) ++ completionMark :: (' ' :: v) =
        (lstrip (u ++ [' ']) ++ [completionMark, ' ']) ++ v by simp]
      rw [rstrip_append_of_ne_nil _ (by rw [hrv]; exact hvne), hrv]
    have hnm2 : completionMark ∉ ' ' :: v := by
      intro hmem
      rcases List.mem_cons.1 hmem with h' | h'
      · revert h'; decide
      · exact hv h'
    rw [hrs, splitMark, splitOnChar_append_cons, splitOnChar_of_not_mem hLnm,
      splitOnChar_of_not_mem hnm2]
    rw [show ([lstrip (u ++ [' '])] ++ [' ' :: v]).getD 1 [] = ' ' :: v from rfl]
    rw [strip_cons_of_space _ (by decide)]
    exact hsv

theorem takeWhile_append_of_all {α : Type} {p : α → Bool} {a : List α}
    (b : List α) (h : ∀ x ∈ a, p x = true) :
    (a ++ b).takeWhile p = a ++ b.takeWhile p := by
  induction a with
  | nil => rfl
  | cons x xs ih =>
    rw [List.cons_append,
      List.takeWhile_cons_of_pos (h x (List.mem_cons_self _ _)),
      ih fun y hy => h y (List.mem_cons_of_mem _ hy), List.cons_append]

theorem first_marked_unique {a a' b b' : List Block} {c c' : Block}
    (h : a ++ c :: b = a' ++ c' :: b')
    (ha : ∀ x ∈ a, hasMark (blockText x) = false)
    (ha' : ∀ x ∈ a', hasMark (blockText x) = false)
    (hc : hasMark (blockText c) = true)
    (hc' : hasMark (blockText c') = true) :
    a = a' ∧ c = c' ∧ b = b' := by
  induction a generalizing a' with
  | nil =>
    cases a' with
    | nil =>
      simp only [List.nil_append] at h
      injection h with h1 h2
      exact ⟨rfl, h1, h2⟩
    | cons y ys =>
      simp only [List.nil_append, List.cons_append] at h
      injection h with h1 h2
      subst h1
      rw [ha' c (List.mem_cons_self _ _)] at hc
      cases hc
  | cons x xs ih =>
    cases a' with
    | nil =>
      simp only [List.nil_append, List.cons_append] at h
      injection h with h1 h2
      rw [← h1] at hc'
      rw [ha x (List.mem_cons_self _ _)] at hc'
      cases hc'
    | cons y ys =>
      simp only [List.cons_append] at h
      injection h with h1 h2
      subst h1
      obtain ⟨h3, h4, h5⟩ := ih h2
        (fun z hz => ha z (List.mem_cons_of_mem _ hz))
        (fun z hz => ha' z (List.mem_cons_of_mem _ hz))
      exact ⟨by rw [h3], h4, h5⟩

theorem countP_marked_decomp {a b : List Block} {c : Block}
    (ha : ∀ x ∈ a, hasMark (blockText x) = false)
    (hb : ∀ x ∈ b, hasMark (blockText x) = false)
    (hc : hasMark (blockText c) = true) :
    (a ++ c :: b).countP (fun x => hasMark (blockText x)) = 1 := by
  rw [List.countP_append, List.countP_cons_of_pos _ _ (by simpa using hc)]
  have h1 : a.countP (fun x => hasMark (blockText x)) = 0 := by
    rw [List.countP_eq_zero]
    intro x hx
    simp [ha x hx]
  have h2 : b.countP (fun x => hasMark (blockText x)) = 0 := by
    rw [List.countP_eq_zero]
    intro x hx
    simp [hb x hx]
  omega

theorem getBlocksGo_false_eq : ∀ (fuel : Nat) (acc rest out : List PTree),
    getBlocksGo false fuel acc rest = some out → out = acc := by
  intro fuel
  induction fuel with
  | zero =>
    intro acc rest out h
    cases rest with
    | nil =>
      simp only [getBlocksGo, Option.some.injEq] at h
      exact h.symm
    | cons b r => simp [getBlocksGo] at h
  | succ f ih =>
    intro acc rest out h
    cases rest with
    | nil =>
      simp only [getBlocksGo, Option.some.injEq] at h
      exact h.symm
    | cons b r =>
      unfold getBlocksGo at h
      rw [if_neg (by simp)] at h
      exact ih acc r out h

theorem getBlocksGo_true_spec : ∀ (fuel : Nat) (acc rest out : List PTree),
    (∀ x ∈ rest, x ∈ acc) →
    getBlocksGo true fuel acc rest = some out →
    (∀ x ∈ acc, x ∈ out) ∧
    (∀ b ∈ rest, isChildPage b = true → ∀ k ∈ b.kids, k ∈ out) ∧
    (∀ b ∈ out, b ∈ acc ∨
      (isChildPage b = true → ∀ k ∈ b.kids, k ∈ out)) := by
  intro fuel
  induction fuel with
  | zero =>
    intro acc rest out hsub h
    cases rest with
    | nil =>
      simp only [getBlocksGo, Option.some.injEq] at h
      subst h
      exact ⟨fun x hx => hx, by simp, fun b hb => Or.inl hb⟩
    | cons b r => simp [getBlocksGo] at h
  | succ f ih =>
    intro acc rest out hsub h
    cases rest with
    | nil =>
      simp only [getBlocksGo, Option.some.injEq] at h
      subst h
      exact ⟨fun x hx => hx, by simp, fun b hb => Or.inl hb⟩
    | cons b r =>
      unfold getBlocksGo at h
      by_cases hcp : isChildPage b = true
      · rw [if_pos ⟨rfl, hcp⟩] at h
        cases hin : getBlocksGo true f b.kids b.kids with
        | none => rw [hin] at h; cases h
        | some extra =>
          rw [hin] at h
          obtain ⟨hA', hB', hE'⟩ := ih b.kids b.kids extra (fun x hx => hx) hin
          obtain ⟨hA, hB, hE⟩ := ih (acc ++ extra) (r ++ extra) out
            (fun x hx => by
              rcases List.mem_append.1 hx with h' | h'
              · exact List.mem_append.2
                  (Or.inl (hsub x (List.mem_cons_of_mem _ h')))
              · exact List.mem_append.2 (Or.inr h')) h
          refine ⟨?_, ?_, ?_⟩
          · intro x hx
            exact hA x (List.mem_append.2 (Or.inl hx))
          · intro b' hb' hcp' k hk
            rcases List.mem_cons.1 hb' with rfl | hb'
            · exact hA k (List.mem_append.2 (Or.inr (hA' k hk)))
            · exact hB b' (List.mem_append.2 (Or.inl hb')) hcp' k hk
          · intro b' hb'
            rcases hE b' hb' with hmem | hP
            · rcases List.mem_append.1 hmem with h' | h'
              · exact Or.inl h'
              · exact Or.inr fun hcp' =>
                  hB b' (List.mem_append.2 (Or.inr h')) hcp'
            · exact Or.inr hP
      · rw [if_neg (by simp [hcp])] at h
        obtain ⟨hA, hB, hE⟩ := ih acc r out
          (fun x hx => hsub x (List.mem_cons_of_mem _ hx)) h
        refine ⟨hA, ?_, hE⟩
        intro b' hb' hcp' k hk
        rcases List.mem_cons.1 hb' with rfl | hb'
        · exact absurd hcp' hcp
        · exact hB b' hb' hcp' k hk

theorem hpb_revert_effects (tr : Str → Str) (pid : Nat) (t : Str) :
    ∀ e ∈ (handle_page_block tr false pid t).2,
      ∃ p s, e = Effect.updateTitle p s := by
  intro e he
  cases hm : hasMark (strip t) with
  | true =>
    rw [hpb_revert_marked hm] at he
    simp only [List.mem_singleton] at he
    exact ⟨pid, _, he⟩
  | false =>
    rw [hpb_revert_unmarked hm] at he
    simp at he

theorem hnb_revert_effects_aux {tr : Str → Str} {now : Int} {fid : Nat}
    {st st' : NodeState} {es : List Effect}
    (h : handle_normal_block tr now fid false false st = some (st', es)) :
    ∀ e ∈ es, (∃ i bb, e = Effect.updateBlock i bb) ∨
      ∃ i, e = Effect.deleteBlock i := by
  by_cases hemp : strip (blockText st.block) = []
  · rw [hnb_empty hemp] at h
    simp only [Option.some.injEq, Prod.mk.injEq] at h
    obtain ⟨-, h2⟩ := h
    rw [← h2]
    simp
  · by_cases hin : st.block.btype ∈ inlineTypes
    · cases hmk : hasMark (strip (blockText st.block)) with
      | true =>
        rw [hnb_inline_revert_marked hemp hin hmk] at h
        simp only [Option.some.injEq] at h
        have h2 : (inlineRevert st).2 = es := congrArg Prod.snd h
        intro e he
        rw [← h2] at he
        simp only [inlineRevert, List.mem_singleton] at he
        exact Or.inl ⟨_, _, he⟩
      | false =>
        rw [hnb_inline_revert_unmarked hemp hin hmk] at h
        simp only [Option.some.injEq, Prod.mk.injEq] at h
        obtain ⟨-, h2⟩ := h
        rw [← h2]
        simp
    · rw [hnb_container_revert hemp hin] at h
      simp only [Option.some.injEq] at h
      have h2 : (containerRevert st).2 = es := congrArg Prod.snd h
      intro e he
      rw [← h2] at he
      simp only [containerRevert, List.mem_map] at he
      obtain ⟨c, -, hce⟩ := he
      exact Or.inr ⟨c.id, hce.symm⟩

theorem hnb_revert_effects {tr : Str → Str} {now : Int} {fid : Nat}
    {rt : Bool} {st st' : NodeState} {es : List Effect}
    (h : handle_normal_block tr now fid rt false st = some (st', es)) :
    ∀ e ∈ es, (∃ i bb, e = Effect.updateBlock i bb) ∨
      ∃ i, e = Effect.deleteBlock i := by
  cases rt with
  | false => exact hnb_revert_effects_aux h
  | true =>
    by_cases hstale : st.block.lastEdited + 5 < now
    · rw [hnb_stale hstale] at h
      simp only [Option.some.injEq, Prod.mk.injEq] at h
      obtain ⟨-, h2⟩ := h
      rw [← h2]
      simp
    · rw [hnb_not_stale hstale] at h
      exact hnb_revert_effects_aux h

/-! ### The claims -/

/-- C1.  Create-mode idempotence: running a create pass twice with no
intervening source edits yields the same document state as running it once.
A title whose trimmed text carries the marker is a no-op, an inline node
whose concatenated text carries the marker is a no-op, and a container node
whose candidate child embeds the current source length is a no-op, so the
second pass changes nothing and performs no effects. -/
theorem claim1_create_idempotent :
    (∀ (tr : Str → Str) (pid pid2 : Nat) (t : Str),
      handle_page_block tr true pid2 (handle_page_block tr true pid t).1 =
        ((handle_page_block tr true pid t).1, [])) ∧
    ∀ (tr : Str → Str) (now now2 : Int) (fid fid2 : Nat) (st st1 : NodeState)
      (es1 : List Effect),
      handle_normal_block tr now fid false true st = some (st1, es1) →
      handle_normal_block tr now2 fid2 false true st1 = some (st1, []) := by
  constructor
  · intro tr pid pid2 t
    cases h : hasMark (strip t) with
    | true =>
      rw [hpb_create_marked h]
      exact hpb_create_marked h
    | false =>
      rw [hpb_create_unmarked h]
      refine hpb_create_marked (hasMark_strip_of ?_)
      rw [hasMark_iff]
      simp [divisionText]
  · intro tr now now2 fid fid2 st st1 es1 h
    by_cases hemp : strip (blockText st.block) = []
    · rw [hnb_empty hemp] at h
      simp only [Option.some.injEq, Prod.mk.injEq] at h
      obtain ⟨h1, -⟩ := h
      subst h1
      exact hnb_empty hemp
    · by_cases hin : st.block.btype ∈ inlineTypes
      · cases hm : hasMark (strip (blockText st.block)) with
        | true =>
          rw [hnb_inline_create_marked hemp hin hm] at h
          simp only [Option.some.injEq, Prod.mk.injEq] at h
          obtain ⟨h1, -⟩ := h
          subst h1
          exact hnb_inline_create_marked hemp hin hm
        | false =>
          rw [hnb_inline_create_unmarked hemp hin hm] at h
          simp only [Option.some.injEq] at h
          have h1 : st1 = { st with block := { st.block with
              richText := st.block.richText ++
                [divisionText, tr (strip (blockText st.block))] } } := by
            have h2 := congrArg Prod.fst h
            exact h2.symm
          have hbt1 : st1.block.btype = st.block.btype := by rw [h1]
          have hin1 : st1.block.btype ∈ inlineTypes := by rw [hbt1]; exact hin
          have hflat : blockText st1.block =
              (st.block.richText ++
                [divisionText, tr (strip (blockText st.block))]).flatten := by
            rw [h1]
            exact blockText_eq_flatten (inline_mem_rich hin)
          have hmk : hasMark (blockText st1.block) = true := by
            rw [hflat, hasMark_iff, List.mem_flatten]
            exact ⟨divisionText, by simp, by simp [divisionText]⟩
          have hne1 : strip (blockText st1.block) ≠ [] :=
            strip_ne_nil_of_mark hmk
          rw [hnb_inline_create_marked hne1 hin1 (hasMark_strip_of hmk)]
      · rw [hnb_container_create hemp hin] at h
        have hblock := containerCreate_block h
        have hbtx : blockText st1.block = blockText st.block := by
          rw [hblock]
        have hemp1 : strip (blockText st1.block) ≠ [] := by
          rw [hbtx]; exact hemp
        have hin1 : st1.block.btype ∉ inlineTypes := by
          rw [hblock]; exact hin
        rw [hnb_container_create hemp1 hin1, hbtx]
        exact containerCreate_idem (btype_rich_of_strip_ne hemp) h

theorem claim1_witness :
    handle_normal_block trIdent 0 8 false true
        ⟨⟨1, "paragraph", [['h','i']], 0, []⟩,
         [⟨7, "paragraph", [['h','i',' ','⚐',' ','0','0','0','2']], 0, []⟩]⟩ =
      some (⟨⟨1, "paragraph", [['h','i']], 0, []⟩,
        [⟨7, "paragraph", [['h','i',' ','⚐',' ','0','0','0','2']], 0, []⟩]⟩,
        []) :=
  claim1_create_idempotent.2 trIdent 0 0 7 8
    ⟨⟨1, "paragraph", [['h','i']], 0, []⟩, []⟩
    ⟨⟨1, "paragraph", [['h','i']], 0, []⟩,
     [⟨7, "paragraph", [['h','i',' ','⚐',' ','0','0','0','2']], 0, []⟩]⟩
    [Effect.translateCall ['h','i'],
     Effect.appendChild 1 ⟨1, "paragraph",
       [['h','i',' ','⚐',' ','0','0','0','2']], 0, []⟩]
    (by decide)

/-- C7 amended.  The realtime staleness filter applies exactly to the nodes
handled by `handle_normal_block` (inline-text and container nodes): with
`realtime` set, such a node older than five minutes is skipped with no reads,
no translation and no mutation.  Title nodes (sub-pages dispatched by
`convert_page`) are NOT subject to the filter: they are always handed to
`handle_page_block`, which has no timestamp parameter at all. -/
theorem claim7_realtime_filter :
    (∀ (tr : Str → Str) (now : Int) (fid : Nat) (cr : Bool) (st : NodeState),
      st.block.lastEdited + 5 < now →
      handle_normal_block tr now fid true cr st = some (st, [])) ∧
    ∀ (tr : Str → Str) (now : Int) (fid : Nat) (rt cr : Bool) (st : NodeState),
      st.block.btype = "child_page" →
      convertBlock tr now fid rt cr st =
        some ({ st with block := { st.block with pageTitle :=
          (handle_page_block tr cr st.block.id st.block.pageTitle).1 } },
          (handle_page_block tr cr st.block.id st.block.pageTitle).2) :=
  ⟨fun _ _ _ _ _ h => hnb_stale h,
   fun _ _ _ _ _ _ h => convertBlock_child_page h⟩

/-- C7 counterexample.  The claim says every node kind — title included — is
skipped when stale.  A `child_page` (title) node last edited at time 0 and
processed at time 1000 with `realtime` set is nevertheless read, translated
and written back. -/
theorem claim7_counterexample :
    ((0 : Int) + 5 < 1000) ∧
    convertBlock trIdent 1000 7 true true
        ⟨⟨2, "child_page", [], 0, ['h','i']⟩, []⟩ =
      some (⟨⟨2, "child_page", [], 0, ['h','i',' ','⚐',' ','h','i']⟩, []⟩,
        [Effect.translateCall ['h','i'],
         Effect.updateTitle 2 ['h','i',' ','⚐',' ','h','i']]) :=
  ⟨by decide, by decide⟩

theorem claim7_witness :
    handle_normal_block trIdent 1000 7 true true
        ⟨⟨5, "paragraph", [['h','i']], 0, []⟩, []⟩ =
      some (⟨⟨5, "paragraph", [['h','i']], 0, []⟩, []⟩, []) :=
  claim7_realtime_filter.1 trIdent 1000 7 true
    ⟨⟨5, "paragraph", [['h','i']], 0, []⟩, []⟩ (by decide)

/-- C9.  A non-title node whose plain text is empty after trimming — which
includes every node whose kind lies outside the recognized rich-text set,
whose text is read as empty — produces zero Document Store mutations (and no
translator call) in both create and revert mode. -/
theorem claim9_skip_empty :
    (∀ (tr : Str → Str) (now : Int) (fid : Nat) (rt cr : Bool)
      (st : NodeState), strip (blockText st.block) = [] →
      handle_normal_block tr now fid rt cr st = some (st, [])) ∧
    ∀ b : Block, b.btype ∉ richTextTypes → blockText b = [] :=
  ⟨fun _ _ _ _ _ _ h => hnb_empty h, fun _ h => blockText_eq_nil h⟩

theorem claim9_witness :
    handle_normal_block trIdent 0 7 false true
        ⟨⟨3, "divider", [['x']], 0, []⟩, []⟩ =
      some (⟨⟨3, "divider", [['x']], 0, []⟩, []⟩, []) :=
  claim9_skip_empty.1 trIdent 0 7 false true
    ⟨⟨3, "divider", [['x']], 0, []⟩, []⟩ (by decide)

/-- C2 amended.  Title round-trip up to trimming: for a title `t` that does
not contain the marker (and whose translation does not), create writes
`translated ⚐ strip t` and a subsequent revert writes back `strip t` —
the original title up to the leading/trailing whitespace that
`handle_page_block` strips before composing (an exact round-trip for every
already-trimmed title). -/
theorem claim2_title_roundtrip (tr : Str → Str) (pid pid2 : Nat) (t : Str)
    (h1 : hasMark t = false) (h2 : hasMark (tr (strip t)) = false) :
    (handle_page_block tr false pid2 (handle_page_block tr true pid t).1).1 =
      strip t := by
  have ht' : hasMark (strip t) = false := by
    rw [hasMark_false_iff] at h1 ⊢
    exact fun hm => h1 (strip_subset t _ hm)
  rw [hpb_create_unmarked ht']
  dsimp only
  have hmkT : hasMark (strip (tr (strip t) ++ divisionText ++ strip t)) =
      true := by
    apply hasMark_strip_of
    rw [hasMark_iff]
    simp [divisionText]
  rw [hpb_revert_marked hmkT]
  exact title_revert_extract (by rwa [hasMark_false_iff] at h2)
    (by rwa [hasMark_false_iff] at ht') (strip_idem t)

/-- C2 counterexample.  The claim promises `revert (create t) = t` for every
marker-free title `t`, but the engine strips the title before embedding it:
for `t = " a"` the round trip returns `"a" ≠ " a"`. -/
theorem claim2_counterexample :
    hasMark [' ', 'a'] = false ∧
    hasMark (trIdent (strip [' ', 'a'])) = false ∧
    (handle_page_block trIdent false 1
      (handle_page_block trIdent true 0 [' ', 'a']).1).1 = ['a'] ∧
    (['a'] : Str) ≠ [' ', 'a'] :=
  ⟨by decide, by decide, by decide, by decide⟩

theorem claim2_witness :
    (handle_page_block trIdent false 1
      (handle_page_block trIdent true 0 ['h','i']).1).1 = strip ['h','i'] :=
  claim2_title_roundtrip trIdent 0 1 ['h','i'] (by decide) (by decide)

/-- C5 amended.  Truncation preserves the mark suffix for the container-child
layout (the only create path that truncates): whenever the translated text
plus the `" ⚐ NNNN"` suffix would exceed the 2000-unit cap (and the suffix
itself fits in the cap, true for any source shorter than `10 ^ 1997`
characters), the stored text is exactly 2000 units: the translated part is
cut, the suffix is appended whole, and the embedded length still parses to
the source length.  Title and inline creates append their marked text without
any truncation (see the counterexample). -/
theorem claim5_truncation (tr : Str → Str) (src : Str)
    (hover : (tr src).length + (containerMarkText src.length).length >
      maxTextLength)
    (hfit : (containerMarkText src.length).length ≤ maxTextLength) :
    (composedMarkedText tr src).length = maxTextLength ∧
    composedMarkedText tr src =
      pyTake (tr src) ((maxTextLength : Int) -
        ((containerMarkText src.length).length : Int)) ++
        containerMarkText src.length ∧
    parseTail (composedMarkedText tr src) = some (src.length : Int) := by
  have hcond : ((tr src).length : Int) >
      (maxTextLength : Int) - ((containerMarkText src.length).length : Int) := by
    omega
  have hcomp : composedMarkedText tr src =
      pyTake (tr src) ((maxTextLength : Int) -
        ((containerMarkText src.length).length : Int)) ++
        containerMarkText src.length := by
    rw [composedMarkedText_eq, if_pos hcond]
  refine ⟨?_, hcomp, parseTail_composed tr src⟩
  rw [hcomp, List.length_append]
  unfold pyTake
  rw [if_pos (by omega), List.length_take]
  have htn : ((maxTextLength : Int) -
      ((containerMarkText src.length).length : Int)).toNat =
      maxTextLength - (containerMarkText src.length).length := by
    omega
  rw [htn]
  omega

/-- C5 counterexample.  The claim covers "every create operation that
composes a marked text", but the title create path never truncates: a
translation of 1996 units plus the 5-unit title suffix exceeds the cap, yet
the stored title is 2001 units long, not 2000. -/
theorem claim5_counterexample :
    (List.replicate 1996 'a').length + (divisionText ++ ['h','i']).length >
      maxTextLength ∧
    ((handle_page_block (fun _ => List.replicate 1996 'a') true 0
      ['h','i']).1).length = 2001 ∧
    (2001 : Nat) ≠ maxTextLength := by
  refine ⟨?_, ?_, by decide⟩
  · rw [List.length_replicate]
    decide
  · rw [hpb_create_unmarked (by decide)]
    dsimp only
    rw [show strip ['h','i'] = ['h','i'] from by decide]
    simp only [List.length_append, List.length_replicate]
    decide

theorem claim5_witness :
    (composedMarkedText (fun _ => List.replicate 1996 'a') ['h','i']).length =
      maxTextLength :=
  (claim5_truncation (fun _ => List.replicate 1996 'a') ['h','i']
    (by simp only [List.length_replicate]; decide) (by decide)).1

/-- C6 amended.  Inline append/revert symmetry for inline nodes with
nonempty trimmed text: if no run contains the marker, a create pass appends
exactly two runs (the marker separator, then the translation) after the
untouched original runs and persists the node; a subsequent revert truncates
the run list strictly before the marker run, restoring exactly the original
node; and revert on a marker-free inline node is a no-op.  (A node whose
trimmed text is empty is skipped before any of this — see the
counterexample.) -/
theorem claim6_inline_symmetry (tr : Str → Str) (now now2 now3 : Int)
    (fid fid2 fid3 : Nat) (st : NodeState)
    (hin : st.block.btype ∈ inlineTypes)
    (hruns : ∀ r ∈ st.block.richText, hasMark r = false)
    (hne : strip (blockText st.block) ≠ []) :
    handle_normal_block tr now fid false true st =
      some ({ st with block := { st.block with richText :=
        st.block.richText ++
          [divisionText, tr (strip (blockText st.block))] } },
        [Effect.translateCall (strip (blockText st.block)),
         Effect.updateBlock st.block.id { st.block with richText :=
           st.block.richText ++
             [divisionText, tr (strip (blockText st.block))] }]) ∧
    handle_normal_block tr now2 fid2 false false
        { st with block := { st.block with richText :=
          st.block.richText ++
            [divisionText, tr (strip (blockText st.block))] } } =
      some (st, [Effect.updateBlock st.block.id st.block]) ∧
    handle_normal_block tr now3 fid3 false false st = some (st, []) := by
  have hm : hasMark (strip (blockText st.block)) = false := by
    rw [hasMark_false_iff]
    intro hmem
    have hmem2 := strip_subset _ _ hmem
    rw [blockText_eq_flatten (inline_mem_rich hin), List.mem_flatten] at hmem2
    obtain ⟨r, hr, hcr⟩ := hmem2
    have hr2 := hruns r hr
    rw [hasMark_false_iff] at hr2
    exact hr2 hcr
  refine ⟨?_, ?_, hnb_inline_revert_unmarked hne hin hm⟩
  · rw [hnb_inline_create_unmarked hne hin hm]
    rfl
  · have hbt1 : ({ st with block := { st.block with richText :=
        st.block.richText ++
          [divisionText, tr (strip (blockText st.block))] } } :
        NodeState).block.btype = st.block.btype := rfl
    have hin1 : ({ st with block := { st.block with richText :=
        st.block.richText ++
          [divisionText, tr (strip (blockText st.block))] } } :
        NodeState).block.btype ∈ inlineTypes := hin
    have hflat : blockText ({ st with block := { st.block with richText :=
        st.block.richText ++
          [divisionText, tr (strip (blockText st.block))] } } :
        NodeState).block =
        (st.block.richText ++
          [divisionText, tr (strip (blockText st.block))]).flatten :=
      blockText_eq_flatten (inline_mem_rich hin)
    have hmk : hasMark (blockText ({ st with block := { st.block with
        richText := st.block.richText ++
          [divisionText, tr (strip (blockText st.block))] } } :
        NodeState).block) = true := by
      rw [hflat, hasMark_iff, List.mem_flatten]
      exact ⟨divisionText, by simp, by simp [divisionText]⟩
    have hne1 : strip (blockText ({ st with block := { st.block with
        richText := st.block.richText ++
          [divisionText, tr (strip (blockText st.block))] } } :
        NodeState).block) ≠ [] := strip_ne_nil_of_mark hmk
    rw [hnb_inline_revert_marked hne1 hin1 (hasMark_strip_of hmk)]
    unfold inlineRevert
    dsimp only
    have htw : (st.block.richText ++
        [divisionText, tr (strip (blockText st.block))]).takeWhile
          (fun r => !hasMark r) = st.block.richText := by
      rw [takeWhile_append_of_all _ (fun r hr => by simp [hruns r hr])]
      rw [List.takeWhile_cons_of_neg (by simp [hasMark_divisionText])]
      simp
    rw [htw]

/-- C6 counterexample.  An inline (heading) node whose single run is one
space — so its run sequence has length `N = 1` and no run contains the
marker — is skipped by the empty-text guard: a create pass appends zero
runs instead of the two the claim demands, and performs no effects. -/
theorem claim6_counterexample :
    (⟨⟨4, "heading_1", [[' ']], 0, []⟩, []⟩ : NodeState).block.richText.length
      = 1 ∧
    (∃ r, r ∈ (⟨⟨4, "heading_1", [[' ']], 0, []⟩, []⟩ :
      NodeState).block.richText ∧ hasMark r = false) ∧
    handle_normal_block trIdent 0 7 false true
        ⟨⟨4, "heading_1", [[' ']], 0, []⟩, []⟩ =
      some (⟨⟨4, "heading_1", [[' ']], 0, []⟩, []⟩, []) :=
  ⟨by decide, ⟨[' '], by decide⟩, by decide⟩

theorem claim6_witness :
    handle_normal_block trIdent 0 9 false false
        ⟨⟨4, "heading_1", [['h','i']], 0, []⟩, []⟩ =
      some (⟨⟨4, "heading_1", [['h','i']], 0, []⟩, []⟩, []) :=
  (claim6_inline_symmetry trIdent 0 0 0 7 8 9
    ⟨⟨4, "heading_1", [['h','i']], 0, []⟩, []⟩
    (by decide) (by decide) (by decide)).2.2

/-- C3 amended.  Duplicate self-healing for container nodes whose trimmed
source text is nonempty: after a create pass completes, exactly one marked
child remains; the first marked child is the kept candidate, every later
marked child is deleted; the survivor is the fresh translation's marked text
when the embedded length differs from the current source length and the
untouched first child when they match.  (A container whose trimmed text is
empty is skipped before the children are even read — see the
counterexample.) -/
theorem claim3_duplicate_healing (tr : Str → Str) (now : Int) (fid : Nat)
    (st st' : NodeState) (es : List Effect)
    (hni : st.block.btype ∉ inlineTypes)
    (hne : strip (blockText st.block) ≠ [])
    (h : handle_normal_block tr now fid false true st = some (st', es)) :
    st'.children.countP (fun c => hasMark (blockText c)) = 1 ∧
    ∀ a c b, st.children = a ++ c :: b →
      (∀ x ∈ a, hasMark (blockText x) = false) →
      hasMark (blockText c) = true →
      (∀ x ∈ b, hasMark (blockText x) = true →
        Effect.deleteBlock x.id ∈ es) ∧
      ∀ m, parseTail (blockText c) = some m →
        (m = ((strip (blockText st.block)).length : Int) →
          st'.children =
            a ++ c :: b.filter (fun x => !hasMark (blockText x))) ∧
        (m ≠ ((strip (blockText st.block)).length : Int) →
          st'.children = a ++ { c with richText :=
            [composedMarkedText tr (strip (blockText st.block))] } ::
            b.filter (fun x => !hasMark (blockText x))) := by
  rw [hnb_container_create hne hni] at h
  unfold containerCreate at h
  cases hs : scanCreate none st.children with
  | none => rw [hs] at h; cases h
  | some t =>
    obtain ⟨cand, surv, dels⟩ := t
    rw [hs] at h
    dsimp only at h
    cases cand with
    | none =>
      dsimp only at h
      obtain ⟨hsurv, -, hclean⟩ := scanCreate_none_eq_none hs
      simp only [Option.some.injEq, Prod.mk.injEq] at h
      obtain ⟨h1, -⟩ := h
      constructor
      · rw [← h1]
        dsimp only
        rw [hsurv]
        rw [show st.children ++ [(⟨fid, st.block.btype,
          [composedMarkedText tr (strip (blockText st.block))],
          st.block.lastEdited, st.block.pageTitle⟩ : Block)] =
          st.children ++ (⟨fid, st.block.btype,
            [composedMarkedText tr (strip (blockText st.block))],
            st.block.lastEdited, st.block.pageTitle⟩ : Block) :: [] from rfl]
        have hrich : st.block.btype ∈ richTextTypes :=
          btype_rich_of_strip_ne hne
        have hbt3 : blockText (⟨fid, st.block.btype,
            [composedMarkedText tr (strip (blockText st.block))],
            st.block.lastEdited, st.block.pageTitle⟩ : Block) =
            composedMarkedText tr (strip (blockText st.block)) :=
          blockText_of_single hrich rfl
        refine countP_marked_decomp hclean (by simp) ?_
        rw [hbt3]
        exact hasMark_composed tr _
      · intro a c b hdec ha hc
        exact absurd (hclean c (hdec ▸ List.mem_append.2
          (Or.inr (List.mem_cons_self _ _)))) (by simp [hc])
    | some p =>
      obtain ⟨c0, m0⟩ := p
      obtain ⟨a0, b0, hl0, ha0, hc0, hm0, hsurv0, hdels0⟩ :=
        scanCreate_none_eq_some hs
      dsimp only at h
      have hbf : ∀ x ∈ b0.filter (fun x => !hasMark (blockText x)),
          hasMark (blockText x) = false := clean_of_filter_unmarked
      by_cases he : ((strip (blockText st.block)).length : Int) = m0
      · rw [if_pos he] at h
        simp only [Option.some.injEq, Prod.mk.injEq] at h
        obtain ⟨h1, h2⟩ := h
        constructor
        · rw [← h1]
          dsimp only
          rw [hsurv0]
          exact countP_marked_decomp ha0 hbf hc0
        · intro a c b hdec ha hc
          obtain ⟨rfl, rfl, rfl⟩ :=
            first_marked_unique (hl0.symm.trans hdec) ha0 ha hc0 hc
          constructor
          · intro x hx hmx
            rw [← h2, hdels0]
            exact List.mem_map.2 ⟨x, List.mem_filter.2 ⟨hx, by simp [hmx]⟩, rfl⟩
          · intro m hm
            rw [hm0] at hm
            injection hm with hm
            subst hm
            refine ⟨fun _ => ?_, fun hne2 => absurd he.symm hne2⟩
            rw [← h1]
            dsimp only
            exact hsurv0
      · rw [if_neg he] at h
        simp only [Option.some.injEq, Prod.mk.injEq] at h
        obtain ⟨h1, h2⟩ := h
        have hch : st'.children = a0 ++ (⟨c0.id, c0.btype,
            [composedMarkedText tr (strip (blockText st.block))],
            c0.lastEdited, c0.pageTitle⟩ : Block) ::
            b0.filter (fun x => !hasMark (blockText x)) := by
          rw [← h1]
          dsimp only
          rw [hsurv0]
          exact replaceFirstMarked_decomp _ ha0 hc0
        have hc0rich : c0.btype ∈ richTextTypes := btype_mem_rich_of_mark hc0
        have hbtp : blockText (⟨c0.id, c0.btype,
            [composedMarkedText tr (strip (blockText st.block))],
            c0.lastEdited, c0.pageTitle⟩ : Block) =
            composedMarkedText tr (strip (blockText st.block)) :=
          blockText_of_single hc0rich rfl
        constructor
        · rw [hch]
          refine countP_marked_decomp ha0 hbf ?_
          rw [hbtp]
          exact hasMark_composed tr _
        · intro a c b hdec ha hc
          obtain ⟨rfl, rfl, rfl⟩ :=
            first_marked_unique (hl0.symm.trans hdec) ha0 ha hc0 hc
          constructor
          · intro x hx hmx
            rw [← h2]
            refine List.mem_append.2 (Or.inl ?_)
            rw [hdels0]
            exact List.mem_map.2 ⟨x, List.mem_filter.2 ⟨hx, by simp [hmx]⟩, rfl⟩
          · intro m hm
            rw [hm0] at hm
            injection hm with hm
            subst hm
            exact ⟨fun heq => absurd heq.symm he, fun _ => hch⟩

/-- C3 counterexample.  A container whose source text trims to empty is
skipped entirely, so a pass over it with two marked children deletes
neither: two marked children remain, not one. -/
theorem claim3_counterexample :
    handle_normal_block trIdent 0 7 false true
        ⟨⟨1, "paragraph", [[' ']], 0, []⟩,
         [⟨11, "paragraph", [['x',' ','⚐',' ','0','0','0','3']], 0, []⟩,
          ⟨12, "paragraph", [['x',' ','⚐',' ','0','0','0','3']], 0, []⟩]⟩ =
      some (⟨⟨1, "paragraph", [[' ']], 0, []⟩,
        [⟨11, "paragraph", [['x',' ','⚐',' ','0','0','0','3']], 0, []⟩,
         ⟨12, "paragraph", [['x',' ','⚐',' ','0','0','0','3']], 0, []⟩]⟩,
        []) ∧
    ([⟨11, "paragraph", [['x',' ','⚐',' ','0','0','0','3']], 0, []⟩,
      ⟨12, "paragraph", [['x',' ','⚐',' ','0','0','0','3']], 0, []⟩] :
        List Block).countP (fun c => hasMark (blockText c)) = 2 ∧
    (2 : Nat) ≠ 1 :=
  ⟨by decide, by decide, by decide⟩

theorem claim3_witness :
    (⟨⟨1, "paragraph", [['h','i']], 0, []⟩,
      [⟨11, "paragraph", [['h','i',' ','⚐',' ','0','0','0','2']], 0, []⟩]⟩ :
        NodeState).children.countP (fun c => hasMark (blockText c)) = 1 :=
  (claim3_duplicate_healing trIdent 0 7
    ⟨⟨1, "paragraph", [['h','i']], 0, []⟩,
     [⟨11, "paragraph", [['x',' ','⚐',' ','0','0','0','3']], 0, []⟩,
      ⟨12, "paragraph", [['x',' ','⚐',' ','0','0','0','3']], 0, []⟩]⟩
    ⟨⟨1, "paragraph", [['h','i']], 0, []⟩,
     [⟨11, "paragraph", [['h','i',' ','⚐',' ','0','0','0','2']], 0, []⟩]⟩
    [Effect.deleteBlock 12, Effect.translateCall ['h','i'],
     Effect.updateBlock 11
       ⟨11, "paragraph", [['h','i',' ','⚐',' ','0','0','0','2']], 0, []⟩]
    (by decide) (by decide) (by decide)).1

/-- C4 amended.  Length-fingerprint change detection for a container node
with nonempty trimmed source text and an existing candidate (first marked
child, parseable tail): the pass overwrites the candidate in place — an
`updateBlock` aimed at the candidate's id — if and only if the embedded
length differs from the current trimmed source length; the translator is
called exactly in that case; and no child is ever appended, so the
candidate's identity is preserved.  When the lengths match, no translation
and no update happen even if the stored content differs.  (A container whose
trimmed text is empty is skipped outright — see the counterexample.) -/
theorem claim4_length_fingerprint (tr : Str → Str) (now : Int) (fid : Nat)
    (st st' : NodeState) (es : List Effect) (a b : List Block) (c : Block)
    (m : Int)
    (hni : st.block.btype ∉ inlineTypes)
    (hne : strip (blockText st.block) ≠ [])
    (hdec : st.children = a ++ c :: b)
    (ha : ∀ x ∈ a, hasMark (blockText x) = false)
    (hc : hasMark (blockText c) = true)
    (hm : parseTail (blockText c) = some m)
    (h : handle_normal_block tr now fid false true st = some (st', es)) :
    (Effect.updateBlock c.id { c with richText :=
      [composedMarkedText tr (strip (blockText st.block))] } ∈ es ↔
      m ≠ ((strip (blockText st.block)).length : Int)) ∧
    (∀ t, Effect.translateCall t ∈ es ↔
      (m ≠ ((strip (blockText st.block)).length : Int) ∧
        t = strip (blockText st.block))) ∧
    ∀ pid bb, Effect.appendChild pid bb ∉ es := by
  rw [hnb_container_create hne hni] at h
  have hscan := scanCreate_none_decomp (a := a) b ha hc hm
  rw [← hdec] at hscan
  unfold containerCreate at h
  rw [hscan] at h
  dsimp only at h
  by_cases he : ((strip (blockText st.block)).length : Int) = m
  · rw [if_pos he] at h
    simp only [Option.some.injEq, Prod.mk.injEq] at h
    obtain ⟨-, h2⟩ := h
    refine ⟨?_, ?_, ?_⟩
    · rw [← h2]
      constructor
      · intro hmem
        obtain ⟨x, -, hx⟩ := List.mem_map.1 hmem
        cases hx
      · intro hne2
        exact absurd he.symm hne2
    · intro t
      rw [← h2]
      constructor
      · intro hmem
        obtain ⟨x, -, hx⟩ := List.mem_map.1 hmem
        cases hx
      · rintro ⟨hne2, -⟩
        exact absurd he.symm hne2
    · intro pid bb hmem
      rw [← h2] at hmem
      obtain ⟨x, -, hx⟩ := List.mem_map.1 hmem
      cases hx
  · rw [if_neg he] at h
    simp only [Option.some.injEq, Prod.mk.injEq] at h
    obtain ⟨-, h2⟩ := h
    refine ⟨?_, ?_, ?_⟩
    · rw [← h2]
      constructor
      · intro _
        exact fun heq => he heq.symm
      · intro _
        simp
    · intro t
      rw [← h2]
      constructor
      · intro hmem
        rcases List.mem_append.1 hmem with hmem | hmem
        · obtain ⟨x, -, hx⟩ := List.mem_map.1 hmem
          cases hx
        · rcases List.mem_cons.1 hmem with hx | hx
          · injection hx with hx
            exact ⟨fun heq => he heq.symm, hx⟩
          · simp at hx
      · rintro ⟨-, rfl⟩
        simp
    · intro pid bb hmem
      rw [← h2] at hmem
      rcases List.mem_append.1 hmem with hmem | hmem
      · obtain ⟨x, -, hx⟩ := List.mem_map.1 hmem
        cases hx
      · simp at hmem

/-- C4 counterexample.  A container whose source text trims to empty but
whose candidate child embeds length 3 — the lengths differ, so the claim
demands a re-translation and in-place update — is skipped entirely: the
pass performs no effects at all. -/
theorem claim4_counterexample :
    handle_normal_block trIdent 0 7 false true
        ⟨⟨1, "paragraph", [[' ']], 0, []⟩,
         [⟨21, "paragraph", [['x',' ','⚐',' ','0','0','0','3']], 0, []⟩]⟩ =
      some (⟨⟨1, "paragraph", [[' ']], 0, []⟩,
        [⟨21, "paragraph", [['x',' ','⚐',' ','0','0','0','3']], 0, []⟩]⟩,
        []) ∧
    parseTail (blockText
      (⟨21, "paragraph", [['x',' ','⚐',' ','0','0','0','3']], 0, []⟩ :
        Block)) = some 3 ∧
    ((strip (blockText
      (⟨1, "paragraph", [[' ']], 0, []⟩ : Block))).length : Int) = 0 ∧
    (3 : Int) ≠ 0 :=
  ⟨by decide, by decide, by decide, by decide⟩

theorem claim4_witness :
    (Effect.updateBlock 21 ⟨21, "paragraph",
        [['h','i',' ','⚐',' ','0','0','0','2']], 0, []⟩ ∈
      ([] : List Effect) ↔ (2 : Int) ≠ (2 : Int)) ∧
    (∀ t, Effect.translateCall t ∈ ([] : List Effect) ↔
      ((2 : Int) ≠ (2 : Int) ∧ t = ['h','i'])) ∧
    ∀ pid bb, Effect.appendChild pid bb ∉ ([] : List Effect) :=
  claim4_length_fingerprint trIdent 0 7
    ⟨⟨1, "paragraph", [['h','i']], 0, []⟩,
     [⟨21, "paragraph", [['y',' ','⚐',' ','0','0','0','2']], 0, []⟩]⟩
    ⟨⟨1, "paragraph", [['h','i']], 0, []⟩,
     [⟨21, "paragraph", [['y',' ','⚐',' ','0','0','0','2']], 0, []⟩]⟩
    [] [] []
    ⟨21, "paragraph", [['y',' ','⚐',' ','0','0','0','2']], 0, []⟩
    2 (by decide) (by decide) (by decide) (by decide) (by decide)
    (by decide) (by decide)

/-- C8 amended.  Collection: with `includeSubpages = true`, every direct
child of the root appears in the collected sequence, and every collected
sub-page node's own direct children appear too (hence, recursively, the
nodes of sub-page chains) — but nodes under nested sub-pages may appear
MORE than once, because the extending loop re-iterates the blocks it
appended (see the counterexample); children of non-sub-page blocks are
never fetched.  With `includeSubpages = false` the result is exactly the
root's direct children — a sub-page's children are absent while the
sub-page node itself is present — and `convert_page` dispatches every
`child_page` node to title handling. -/
theorem claim8_collection (fuel : Nat) (t : PTree) (out out' : List PTree) :
    (get_blocks true fuel t = some out →
      (∀ x ∈ t.kids, x ∈ out) ∧
      ∀ b ∈ out, isChildPage b = true → ∀ k ∈ b.kids, k ∈ out) ∧
    (get_blocks false fuel t = some out' → out' = t.kids) ∧
    ∀ (tr : Str → Str) (now : Int) (fid : Nat) (rt cr : Bool)
      (st : NodeState), st.block.btype = "child_page" →
      convertBlock tr now fid rt cr st =
        some ({ st with block := { st.block with pageTitle :=
          (handle_page_block tr cr st.block.id st.block.pageTitle).1 } },
          (handle_page_block tr cr st.block.id st.block.pageTitle).2) := by
  refine ⟨?_, ?_, fun _ _ _ _ _ _ h => convertBlock_child_page h⟩
  · intro h
    obtain ⟨hA, hB, hE⟩ :=
      getBlocksGo_true_spec fuel t.kids t.kids out (fun x hx => hx) h
    refine ⟨hA, ?_⟩
    intro b hb hcp k hk
    rcases hE b hb with hmem | hP
    · exact hB b hmem hcp k hk
    · exact hP hcp k hk
  · intro h
    exact getBlocksGo_false_eq fuel t.kids t.kids out' h

/-- C8 counterexample.  In a tree `root → A (sub-page) → B (sub-page) → x`,
the collection with `includeSubpages = true` returns the paragraph `x`
twice (ids `[7, 8, 9, 9]`): the loop iterates the blocks it appended and
expands the nested sub-page `B` a second time — "appears exactly once" is
false. -/
theorem claim8_counterexample :
    (get_blocks true 10 (.mk ⟨1, "paragraph", [], 0, []⟩
        [.mk ⟨7, "child_page", [], 0, ['a']⟩
          [.mk ⟨8, "child_page", [], 0, ['b']⟩
            [.mk ⟨9, "paragraph", [['x']], 0, []⟩ []]]])).map
      (fun l => l.countP (fun s => s.val.id == 9)) = some 2 ∧
    (2 : Nat) ≠ 1 :=
  ⟨rfl, by decide⟩

theorem claim8_witness :
    [PTree.mk ⟨7, "child_page", [], 0, ['a']⟩
      [PTree.mk ⟨9, "paragraph", [['x']], 0, []⟩ []]] =
      (PTree.mk ⟨1, "paragraph", [], 0, []⟩
        [PTree.mk ⟨7, "child_page", [], 0, ['a']⟩
          [PTree.mk ⟨9, "paragraph", [['x']], 0, []⟩ []]]).kids :=
  (claim8_collection 10 (PTree.mk ⟨1, "paragraph", [], 0, []⟩
      [PTree.mk ⟨7, "child_page", [], 0, ['a']⟩
        [PTree.mk ⟨9, "paragraph", [['x']], 0, []⟩ []]]) []
    [PTree.mk ⟨7, "child_page", [], 0, ['a']⟩
      [PTree.mk ⟨9, "paragraph", [['x']], 0, []⟩ []]]).2.1 rfl

/-- C10.  Revert mode never invokes the Text Translator (so it is
well-defined with both language codes absent) and never creates a node: on a
title node every effect is an `updateTitle` (restoring the segment after the
marker), and on every other node each effect is either an `updateBlock`
(inline run-sequence truncation) or a `deleteBlock` (marked container
child), never a `translateCall` or an `appendChild`. -/
theorem claim10_revert_never_translates :
    (∀ (tr : Str → Str) (pid : Nat) (t : Str) (e : Effect),
      e ∈ (handle_page_block tr false pid t).2 →
      ∃ p s, e = Effect.updateTitle p s) ∧
    ∀ (tr : Str → Str) (now : Int) (fid : Nat) (rt : Bool)
      (st st' : NodeState) (es : List Effect),
      convertBlock tr now fid rt false st = some (st', es) →
      ∀ e ∈ es, (∃ p s, e = Effect.updateTitle p s) ∨
        (∃ i bb, e = Effect.updateBlock i bb) ∨
        ∃ i, e = Effect.deleteBlock i := by
  constructor
  · intro tr pid t e he
    exact hpb_revert_effects tr pid t e he
  · intro tr now fid rt st st' es h e he
    by_cases hcp : st.block.btype = "child_page"
    · rw [convertBlock_child_page hcp] at h
      simp only [Option.some.injEq, Prod.mk.injEq] at h
      obtain ⟨-, h2⟩ := h
      rw [← h2] at he
      exact Or.inl (hpb_revert_effects _ _ _ e he)
    · unfold convertBlock at h
      rw [if_neg hcp] at h
      rcases hnb_revert_effects h e he with h' | h'
      · exact Or.inr (Or.inl h')
      · exact Or.inr (Or.inr h')

theorem claim10_witness :
    (∃ p s, Effect.deleteBlock 11 = Effect.updateTitle p s) ∨
    (∃ i bb, Effect.deleteBlock 11 = Effect.updateBlock i bb) ∨
    ∃ i, Effect.deleteBlock 11 = Effect.deleteBlock i :=
  claim10_revert_never_translates.2 trIdent 0 7 false
    ⟨⟨1, "paragraph", [['h','i']], 0, []⟩,
     [⟨11, "paragraph", [['x',' ','⚐',' ','0','0','0','3']], 0, []⟩]⟩
    ⟨⟨1, "paragraph", [['h','i']], 0, []⟩, []⟩
    [Effect.deleteBlock 11] (by decide)
    (Effect.deleteBlock 11) (by decide)

end NotionTranslate
